import Mathlib

/-!
Verification of the parson JSON library (src/3rdparty/parson/parson.c).

Modelling conventions:
* C byte strings are `List Char` where every element is one byte
  (code point < 256); the terminating NUL is the end of the list and
  therefore strings contain no NUL character.
* The C `double` is modelled exactly: a finite double is an exact rational,
  plus the two infinities and NaN (payload bits are irrelevant to this
  code).  Decimal-to-double and double-to-decimal conversions are modelled
  as exact rational conversions.
* `(int)num` (used by the serializer's integer test) truncates; when the
  value is outside the `int` range the C cast is undefined, and on the
  targeted platforms the comparison `num == (double)(int)num` is false
  there, which is how it is modelled (non-finite values also compare
  unequal).
* Heap allocation always succeeds in the model; `realloc`-based `resize`
  operations with a positive size are no-ops on the abstract contents.
-/

namespace Parson

/-- Model of a C `double`: exact finite rationals plus infinities and NaN. -/
inductive FV where
  | fin (q : ℚ)
  | inf (neg : Bool)
  | nan
deriving DecidableEq

/-- The test `num == ((double)(int)num)` from the serializer
(parson.c:661,728): true exactly for whole numbers in `int` range, and
then the integer that `%d` prints.  Out-of-range and non-finite values
take the `%f` branch. -/
def fvInt32 : FV → Option ℤ
  | .fin q => if q.den = 1 ∧ -(2 ^ 31) ≤ q.num ∧ q.num < 2 ^ 31 then some q.num else none
  | _ => none

/-- `fabs(a - b) < 0.000001` from json_value_equals (parson.c:1450).
Any comparison involving NaN is false; differences involving an infinity
are infinite or NaN, hence also compare false. -/
def fvEqEps : FV → FV → Bool
  | .fin x, .fin y => |x - y| < 1 / 1000000
  | _, _ => false

/-- Decimal digits of a natural number, most significant first, as the C
printf `%u` core would produce them. -/
def natToChars (n : ℕ) : List Char :=
  if n = 0 then ['0'] else (Nat.digits 10 n).reverse.map (fun d => Char.ofNat (48 + d))

/-- printf `%d` of a (wider-than-32-bit, but only used in range) integer. -/
def intToChars (i : ℤ) : List Char :=
  if i < 0 then '-' :: natToChars i.natAbs else natToChars i.natAbs

/-- printf `%f` of a finite value: sign, integral digits, '.', six decimal
digits, rounding to nearest (ties are irrelevant to every claim). -/
def fixed6 (q : ℚ) : List Char :=
  (if q < 0 then ['-'] else []) ++
    (natToChars (⌊|q| * 1000000 + 1 / 2⌋.toNat / 1000000) ++
      '.' :: (List.replicate (6 - (natToChars (⌊|q| * 1000000 + 1 / 2⌋.toNat % 1000000)).length) '0' ++
        natToChars (⌊|q| * 1000000 + 1 / 2⌋.toNat % 1000000)))

/-- The characters sprintf emits for a number (parson.c:661-663,728-732):
`%d` of the truncation when the value is a whole number in `int` range,
otherwise `%f`.  glibc `%f` renders the non-finite values as shown. -/
def numToChars : FV → List Char
  | .nan => ['n', 'a', 'n']
  | .inf true => ['-', 'i', 'n', 'f']
  | .inf false => ['i', 'n', 'f']
  | .fin q =>
    match fvInt32 (.fin q) with
    | some i => intToChars i
    | none => fixed6 q

/-- The JSON value tree (struct json_value_t, parson.c:54-79).  An object
is its `names`/`values` arrays zipped; `count` is the list length. -/
inductive JValue where
  | null
  | bool (b : Bool)
  | num (v : FV)
  | str (s : List Char)
  | arr (items : List JValue)
  | obj (mems : List (List Char × JValue))

instance : Inhabited JValue := ⟨.null⟩

/-- The left curly bracket byte. -/
def lcub : Char := Char.ofNat 123

/-- The right curly bracket byte. -/
def rcub : Char := Char.ofNat 125

/-- One character of json_serialize_string output (parson.c:744-763). -/
def escapeChar (c : Char) : List Char :=
  if c.toNat = 34 then ['\\', '"']
  else if c.toNat = 92 then ['\\', '\\']
  else if c.toNat = 8 then ['\\', 'b']
  else if c.toNat = 12 then ['\\', 'f']
  else if c.toNat = 10 then ['\\', 'n']
  else if c.toNat = 13 then ['\\', 'r']
  else if c.toNat = 9 then ['\\', 't']
  else [c]

/-- Body of an emitted JSON string. -/
def escapeList : List Char → List Char
  | [] => []
  | c :: cs => escapeChar c ++ escapeList cs

/-- json_serialize_string (parson.c:744-763): quotes around the escaped body. -/
def serializeString (s : List Char) : List Char :=
  '"' :: escapeList s ++ ['"']

/-- parson_strlen (parson.c:167-177): post-escape length of a string body,
char by char; 2 for the members of `"\"\\\b\f\n\r\t"`, else 1. -/
def escCount (c : Char) : ℕ :=
  if c.toNat = 34 ∨ c.toNat = 92 ∨ c.toNat = 8 ∨ c.toNat = 12 ∨
     c.toNat = 10 ∨ c.toNat = 13 ∨ c.toNat = 9
  then 2 else 1

/-- parson_strlen accumulated over the string. -/
def parsonStrlen : List Char → ℕ
  | [] => 0
  | c :: cs => escCount c + parsonStrlen cs

/-- The keyword bytes APPEND_STRING("null") writes. -/
def nullBytes : List Char := ['n', 'u', 'l', 'l']

/-- The keyword bytes APPEND_STRING("true") writes. -/
def trueBytes : List Char := ['t', 'r', 'u', 'e']

/-- The keyword bytes APPEND_STRING("false") writes. -/
def falseBytes : List Char := ['f', 'a', 'l', 's', 'e']

mutual

/-- json_serialize_to_buffer_r (parson.c:673-742) as the emitted bytes.
The only NULL return is for the JSONError tag, which no tree carries, so
the model is total. -/
def serializeValue : JValue → List Char
  | .null => nullBytes
  | .bool b => if b then trueBytes else falseBytes
  | .num v => numToChars v
  | .str s => serializeString s
  | .arr items => '[' :: serializeItems items ++ [']']
  | .obj mems => lcub :: serializeMems mems ++ [rcub]

/-- The array loop of json_serialize_to_buffer_r: items with `,` between. -/
def serializeItems : List JValue → List Char
  | [] => []
  | [x] => serializeValue x
  | x :: y :: rest => serializeValue x ++ ',' :: serializeItems (y :: rest)

/-- The object loop of json_serialize_to_buffer_r: `"key":value` with `,` between. -/
def serializeMems : List (List Char × JValue) → List Char
  | [] => []
  | [(k, v)] => serializeString k ++ ':' :: serializeValue v
  | (k, v) :: m :: rest =>
    serializeString k ++ ':' :: serializeValue v ++ ',' :: serializeMems (m :: rest)

end

mutual

/-- json_serialization_size_r (parson.c:620-671). -/
def sizeValue : JValue → ℕ
  | .null => 4
  | .bool true => 4
  | .bool false => 5
  | .num v => (numToChars v).length
  | .str s => parsonStrlen s + 2
  | .arr items => 2 + (if 0 < items.length then items.length - 1 else 0) + sizeItems items
  | .obj mems => 2 + (if 0 < mems.length then 2 * mems.length - 1 else 0) + sizeMems mems

/-- The array loop of json_serialization_size_r. -/
def sizeItems : List JValue → ℕ
  | [] => 0
  | x :: rest => sizeValue x + sizeItems rest

/-- The object loop of json_serialization_size_r: per member, the escaped
key plus its two quotes, plus the value. -/
def sizeMems : List (List Char × JValue) → ℕ
  | [] => 0
  | (k, v) :: rest => parsonStrlen k + 2 + sizeValue v + sizeMems rest

end

/-- json_serialization_size (parson.c:1084-1087): recursive size plus one
terminator byte. -/
def jsonSerializationSize (v : JValue) : ℕ := sizeValue v + 1

/-- json_serialize_to_string (parson.c:1121-1133): allocates exactly the
reported size, so the buffer check never fails and the output is the
recursive emission. -/
def jsonSerializeToString (v : JValue) : List Char := serializeValue v

/-- C `isspace` over the default locale (used by SKIP_WHITESPACES and by
strtod's leading-whitespace rule): space and the five control whitespace
bytes 0x09-0x0D. -/
def isspaceC (c : Char) : Bool := c.toNat = 32 ∨ (9 ≤ c.toNat ∧ c.toNat ≤ 13)

/-- SKIP_WHITESPACES (parson.c:43). -/
def skipWs (s : List Char) : List Char := s.dropWhile (fun c => isspaceC c)

/-- C `isdigit`. -/
def isdigitC (c : Char) : Bool := 48 ≤ c.toNat ∧ c.toNat ≤ 57

/-- C `isxdigit`. -/
def isxdigitC (c : Char) : Bool :=
  isdigitC c ∨ (97 ≤ c.toNat ∧ c.toNat ≤ 102) ∨ (65 ≤ c.toNat ∧ c.toNat ≤ 70)

/-- Value of a hex digit (only used under `isxdigitC`). -/
def hexVal (c : Char) : ℕ :=
  if isdigitC c then c.toNat - 48 else if 97 ≤ c.toNat then c.toNat - 87 else c.toNat - 55

/-- Longest leading run of decimal digits, as digit values, plus the rest. -/
def digitRun : List Char → List ℕ × List Char
  | [] => ([], [])
  | c :: cs =>
    if isdigitC c then
      let p := digitRun cs
      ((c.toNat - 48) :: p.1, p.2)
    else ([], c :: cs)

/-- Longest leading run of hex digits, as digit values, plus the rest. -/
def hexRun : List Char → List ℕ × List Char
  | [] => ([], [])
  | c :: cs =>
    if isxdigitC c then
      let p := hexRun cs
      (hexVal c :: p.1, p.2)
    else ([], c :: cs)

/-- Value of a digit run (most significant first) in the given base. -/
def digitsVal (base : ℕ) (l : List ℕ) : ℕ := l.foldl (fun a d => a * base + d) 0

/-- Case-insensitive ASCII lowering, for strtod's inf/nan tokens. -/
def lowerC (c : Char) : Char :=
  if 65 ≤ c.toNat ∧ c.toNat ≤ 90 then Char.ofNat (c.toNat + 32) else c

/-- Match a lowercase pattern case-insensitively; returns the rest. -/
def matchCI : List Char → List Char → Option (List Char)
  | [], s => some s
  | _ :: _, [] => none
  | p :: ps, c :: cs => if lowerC c = p then matchCI ps cs else none

/-- Exponent part of a C99 decimal float: `e`/`E`, optional sign, digits;
consumed only when at least one digit follows, else the reader backtracks
to before the `e`.  `emark2` is the alternative exponent letter. -/
def expPart (emark emark2 : Char) (base : ℕ) (mant : ℚ) (r : List Char) : ℚ × List Char :=
  match r with
  | [] => (mant, r)
  | e :: t =>
    if e = emark ∨ e = emark2 then
      match t with
      | '+' :: t2 =>
        match digitRun t2 with
        | ([], _) => (mant, r)
        | (ed, t3) => (mant * (base : ℚ) ^ digitsVal 10 ed, t3)
      | '-' :: t2 =>
        match digitRun t2 with
        | ([], _) => (mant, r)
        | (ed, t3) => (mant / (base : ℚ) ^ digitsVal 10 ed, t3)
      | t2 =>
        match digitRun t2 with
        | ([], _) => (mant, r)
        | (ed, t3) => (mant * (base : ℚ) ^ digitsVal 10 ed, t3)
    else (mant, r)

/-- Decimal-float case of `strtodMag`. -/
def decimalFloat (s : List Char) : Option (FV × List Char) :=
  match digitRun s with
  | ([], r1) =>
    match r1 with
    | '.' :: r2 =>
      match digitRun r2 with
      | ([], _) => none
      | (fp, r3) =>
        let p := expPart 'e' 'E' 10 ((digitsVal 10 fp : ℚ) / 10 ^ fp.length) r3
        some (.fin p.1, p.2)
    | _ => none
  | (ip, r1) =>
    match r1 with
    | '.' :: r2 =>
      match digitRun r2 with
      | (fp, r3) =>
        let p := expPart 'e' 'E' 10
          ((digitsVal 10 ip : ℚ) + (digitsVal 10 fp : ℚ) / 10 ^ fp.length) r3
        some (.fin p.1, p.2)
    | _ =>
      let p := expPart 'e' 'E' 10 (digitsVal 10 ip : ℚ) r1
      some (.fin p.1, p.2)

/-- The body of C99 `strtod` after the optional sign, producing the
magnitude: `inf`/`infinity`/`nan` (case-insensitive; the `nan(...)`
payload form is not modelled, no claim touches it), a `0x` hexadecimal
float with optional binary exponent, or a decimal float with optional
decimal exponent.  `none` means no conversion. -/
def strtodMag (s : List Char) : Option (FV × List Char) :=
  match matchCI ['i', 'n', 'f', 'i', 'n', 'i', 't', 'y'] s with
  | some r => some (.inf false, r)
  | none =>
  match matchCI ['i', 'n', 'f'] s with
  | some r => some (.inf false, r)
  | none =>
  match matchCI ['n', 'a', 'n'] s with
  | some r => some (.nan, r)
  | none =>
  match s with
  | '0' :: x :: rest =>
    if x = 'x' ∨ x = 'X' then
      match hexRun rest with
      | ([], r1) =>
        match r1 with
        | '.' :: r2 =>
          match hexRun r2 with
          | ([], _) => some (.fin 0, x :: rest)   -- only "0" converts
          | (fp, r3) =>
            let p := expPart 'p' 'P' 2 ((digitsVal 16 fp : ℚ) / 16 ^ fp.length) r3
            some (.fin p.1, p.2)
        | _ => some (.fin 0, x :: rest)           -- only "0" converts
      | (ip, r1) =>
        match r1 with
        | '.' :: r2 =>
          match hexRun r2 with
          | (fp, r3) =>
            let p := expPart 'p' 'P' 2
              ((digitsVal 16 ip : ℚ) + (digitsVal 16 fp : ℚ) / 16 ^ fp.length) r3
            some (.fin p.1, p.2)
        | _ =>
          let p := expPart 'p' 'P' 2 (digitsVal 16 ip : ℚ) r1
          some (.fin p.1, p.2)
    else decimalFloat s
  | _ => decimalFloat s

/-- Negation of a modelled double. -/
def fvNeg : FV → FV
  | .fin q => .fin (-q)
  | .inf b => .inf (!b)
  | .nan => .nan

/-- C99 `strtod`: skip whitespace, optional sign, then the magnitude.
When no conversion is performed the result is 0 with the rest equal to
the whole input (the C `endptr` is the original pointer). -/
def strtod (s : List Char) : FV × List Char :=
  match skipWs s with
  | '-' :: r =>
    match strtodMag r with
    | some (v, rest) => (fvNeg v, rest)
    | none => (.fin 0, s)
  | '+' :: r =>
    match strtodMag r with
    | some (v, rest) => (v, rest)
    | none => (.fin 0, s)
  | s1 =>
    match strtodMag s1 with
    | some (v, rest) => (v, rest)
    | none => (.fin 0, s)

/-- is_decimal (parson.c:156-165) over the consumed span. -/
def isDecimal (s : List Char) : Bool :=
  if 1 < s.length ∧ s.getD 0 ' ' = '0' ∧ s.getD 1 ' ' ≠ '.' then false
  else if 2 < s.length ∧ s.take 2 = ['-', '0'] ∧ s.getD 2 ' ' ≠ '.' then false
  else !(s.any fun c => c = 'x' ∨ c = 'X')

/-- parse_number_value (parson.c:597-608): strtod, then the is_decimal
guard over the consumed span; on acceptance the cursor advances to
strtod's end position (possibly not at all, yielding Number 0). -/
def parseNumberValue (s : List Char) : Option (JValue × List Char) :=
  let p := strtod s
  if isDecimal (s.take (s.length - p.2.length)) then some (.num p.1, p.2) else none

/-- parse_boolean_value (parson.c:584-595). -/
def parseBooleanValue (s : List Char) : Option (JValue × List Char) :=
  if s.take 4 = ['t', 'r', 'u', 'e'] then some (.bool true, s.drop 4)
  else if s.take 5 = ['f', 'a', 'l', 's', 'e'] then some (.bool false, s.drop 5)
  else none

/-- parse_null_value (parson.c:610-617). -/
def parseNullValue (s : List Char) : Option (JValue × List Char) :=
  if s.take 4 = ['n', 'u', 'l', 'l'] then some (.null, s.drop 4)
  else none

/-- parse_utf_16 (parson.c:372-409), entered at the `u` of an escape:
yields the emitted UTF-8 bytes, the number of input bytes consumed
(counted from the `u`), and the rest of the input.  Out-of-input cases
fail exactly as the C does when it meets the terminator or a non-hex
byte. -/
def parseUtf16 : List Char → Option (List Char × ℕ × List Char)
  | 'u' :: h1 :: h2 :: h3 :: h4 :: r =>
    if isxdigitC h1 ∧ isxdigitC h2 ∧ isxdigitC h3 ∧ isxdigitC h4 then
      let cp := ((hexVal h1 * 16 + hexVal h2) * 16 + hexVal h3) * 16 + hexVal h4
      if cp < 0x80 then some ([Char.ofNat cp], 5, r)
      else if cp < 0x800 then
        some ([Char.ofNat (((cp >>> 6) &&& 0x1F) ||| 0xC0),
               Char.ofNat ((cp &&& 0x3F) ||| 0x80)], 5, r)
      else if cp < 0xD800 ∨ 0xDFFF < cp then
        some ([Char.ofNat (((cp >>> 12) &&& 0x0F) ||| 0xE0),
               Char.ofNat (((cp >>> 6) &&& 0x3F) ||| 0x80),
               Char.ofNat ((cp &&& 0x3F) ||| 0x80)], 5, r)
      else if cp ≤ 0xDBFF then
        match r with
        | '\\' :: 'u' :: t1 :: t2 :: t3 :: t4 :: r2 =>
          if isxdigitC t1 ∧ isxdigitC t2 ∧ isxdigitC t3 ∧ isxdigitC t4 then
            let tr := ((hexVal t1 * 16 + hexVal t2) * 16 + hexVal t3) * 16 + hexVal t4
            if 0xDC00 ≤ tr ∧ tr ≤ 0xDFFF then
              let cp2 := ((((cp - 0xD800) &&& 0x3FF) <<< 10) ||| ((tr - 0xDC00) &&& 0x3FF)) + 0x10000
              some ([Char.ofNat (((cp2 >>> 18) &&& 0x07) ||| 0xF0),
                     Char.ofNat (((cp2 >>> 12) &&& 0x3F) ||| 0x80),
                     Char.ofNat (((cp2 >>> 6) &&& 0x3F) ||| 0x80),
                     Char.ofNat ((cp2 &&& 0x3F) ||| 0x80)], 11, r2)
            else none
          else none
        | _ => none
      else none
    else none
  | _ => none

/-- process_string's loop (parson.c:414-452).  The second argument is the
input from the span start (extending beyond the span, as the C buffer
does); the third is the remaining byte budget `len - (input_ptr -
input)`.  The loop also stops at the buffer terminator (list end), and a
`\u` escape may consume past the budget, ending the loop as the C
comparison does.  The first argument is a Lean recursion fuel; every
iteration spends at least one budget byte, so fuel `budget + 1` is never
exhausted. -/
def processStringAux : ℕ → List Char → ℕ → Option (List Char)
  | 0, _, _ => none
  | _ + 1, _, 0 => some []
  | _ + 1, [], _ => some []
  | fuel + 1, c :: r, n + 1 =>
    if c = '\\' then
      match r with
      | [] => none
      | e :: r2 =>
        if e = '"' then (fun l => '"' :: l) <$> processStringAux fuel r2 (n - 1)
        else if e = '\\' then (fun l => '\\' :: l) <$> processStringAux fuel r2 (n - 1)
        else if e = '/' then (fun l => '/' :: l) <$> processStringAux fuel r2 (n - 1)
        else if e = 'b' then (fun l => Char.ofNat 8 :: l) <$> processStringAux fuel r2 (n - 1)
        else if e = 'f' then (fun l => Char.ofNat 12 :: l) <$> processStringAux fuel r2 (n - 1)
        else if e = 'n' then (fun l => Char.ofNat 10 :: l) <$> processStringAux fuel r2 (n - 1)
        else if e = 'r' then (fun l => Char.ofNat 13 :: l) <$> processStringAux fuel r2 (n - 1)
        else if e = 't' then (fun l => Char.ofNat 9 :: l) <$> processStringAux fuel r2 (n - 1)
        else if e = 'u' then
          match parseUtf16 (e :: r2) with
          | none => none
          | some (bytes, consumed, rest) =>
            (fun l => bytes ++ l) <$> processStringAux fuel rest (n - consumed)
        else none
    else if c.toNat < 0x20 then none
    else (fun l => c :: l) <$> processStringAux fuel r n

/-- process_string (parson.c:414-452); the final shrinking realloc does
not change the contents. -/
def processString (inp : List Char) (len : ℕ) : Option (List Char) :=
  processStringAux (len + 1) inp len

/-- skip_quotes (parson.c:357-370) after the opening quote: the number of
bytes consumed (including the closing quote when found) and the rest.
Reaching the list end models stopping at the C terminator. -/
def skipQuotesAux : List Char → ℕ × List Char
  | [] => (0, [])
  | c :: r =>
    if c = '"' then (1, r)
    else if c = '\\' then
      match r with
      | [] => (1, [])
      | _ :: r2 =>
        let p := skipQuotesAux r2
        (2 + p.1, p.2)
    else
      let p := skipQuotesAux r
      (1 + p.1, p.2)

/-- get_quoted_string (parson.c:456-464): skip the quoted span, fail when
the cursor then rests on the terminator, else process the span (its
length is the consumed count minus the two quotes). -/
def getQuotedString (s : List Char) : Option (List Char) × List Char :=
  match s with
  | [] => (none, [])
  | _ :: r =>
    let p := skipQuotesAux r
    if p.2.isEmpty then (none, p.2)
    else (processString r (p.1 - 1), p.2)

/-- parse_string_value (parson.c:577-582). -/
def parseStringValue (s : List Char) : Option (JValue × List Char) :=
  match getQuotedString s with
  | (none, _) => none
  | (some body, rest) => some (.str body, rest)

/-- json_object_nget_value (parson.c:286-296) on the model object: the
first member whose name matches exactly. -/
def jsonObjectGetValueL : List (List Char × JValue) → List Char → Option JValue
  | [], _ => none
  | (k, v) :: rest, name => if k = name then some v else jsonObjectGetValueL rest name

/-- json_object_add (parson.c:254-275): growth doubles from 15 and fails
past OBJECT_MAX_CAPACITY = 960, so an add fails exactly when the count
has reached 960; a duplicate name also fails; otherwise the pair goes at
the end. -/
def jsonObjectAdd (mems : List (List Char × JValue)) (name : List Char) (v : JValue) :
    Option (List (List Char × JValue)) :=
  if 960 ≤ mems.length then none
  else if (jsonObjectGetValueL mems name).isSome then none
  else some (mems ++ [(name, v)])

/-- json_array_add (parson.c:319-330) with ARRAY_MAX_CAPACITY = 122880. -/
def jsonArrayAdd (items : List JValue) (v : JValue) : Option (List JValue) :=
  if 122880 ≤ items.length then none
  else some (items ++ [v])

/-- Closing step of parse_object_value (parson.c:529-536): skip
whitespace, require the closing brace; the trimming resize (count is at
least 1 here) does not change the contents. -/
def objFinish (acc : List (List Char × JValue)) (s : List Char) : Option (JValue × List Char) :=
  match skipWs s with
  | [] => none
  | c :: r => if c = rcub then some (.obj acc, r) else none

/-- Closing step of parse_array_value (parson.c:567-574). -/
def arrFinish (acc : List JValue) (s : List Char) : Option (JValue × List Char) :=
  match skipWs s with
  | [] => none
  | c :: r => if c = ']' then some (.arr acc, r) else none

/-- The control point of the recursive-descent parser that a `parseStep`
call stands at: parse_value, or one of parse_object_value /
parse_array_value split into their pre-loop check and their member loop
(the loop carries the container built so far). -/
inductive PMode where
  | val (nesting : ℕ)
  | objOpen (nesting : ℕ)
  | objLoop (nesting : ℕ) (acc : List (List Char × JValue))
  | arrOpen (nesting : ℕ)
  | arrLoop (nesting : ℕ) (acc : List JValue)

/-- The recursive parser (parse_value, parson.c:466-488;
parse_object_value, parson.c:490-537; parse_array_value,
parson.c:539-575), as one function structurally recursive on a fuel that
every call decrements.  Along any call path at most three fuel units are
spent per input byte consumed, so fuel `3 * length + 3` at the top level
is never exhausted on any input. -/
def parseStep : ℕ → PMode → List Char → Option (JValue × List Char)
  | 0, _, _ => none
  | fuel + 1, .val nesting, s =>
    if 19 < nesting then none
    else
      match skipWs s with
      | [] => none
      | c :: r =>
        if c = lcub then parseStep fuel (.objOpen (nesting + 1)) r
        else if c = '[' then parseStep fuel (.arrOpen (nesting + 1)) r
        else if c = '"' then parseStringValue (c :: r)
        else if c = 't' ∨ c = 'f' then parseBooleanValue (c :: r)
        else if c = '-' ∨ isdigitC c then parseNumberValue (c :: r)
        else if c = 'n' then parseNullValue (c :: r)
        else none
  | fuel + 1, .objOpen nesting, s =>
    match skipWs s with
    | [] => none
    | c :: r =>
      if c = rcub then some (.obj [], r) else parseStep fuel (.objLoop nesting []) (c :: r)
  | fuel + 1, .objLoop nesting acc, s =>
    match getQuotedString s with
    | (none, _) => none
    | (some key, s1) =>
      match skipWs s1 with
      | ':' :: s3 =>
        match parseStep fuel (.val nesting) s3 with
        | none => none
        | some (v, s4) =>
          match jsonObjectAdd acc key v with
          | none => none
          | some acc2 =>
            match skipWs s4 with
            | ',' :: s6 => parseStep fuel (.objLoop nesting acc2) (skipWs s6)
            | s5 => objFinish acc2 s5
      | _ => none
  | fuel + 1, .arrOpen nesting, s =>
    match skipWs s with
    | [] => none
    | c :: r =>
      if c = ']' then some (.arr [], r) else parseStep fuel (.arrLoop nesting []) (c :: r)
  | fuel + 1, .arrLoop nesting acc, s =>
    match parseStep fuel (.val nesting) s with
    | none => none
    | some (v, s1) =>
      match jsonArrayAdd acc v with
      | none => none
      | some acc2 =>
        match skipWs s1 with
        | ',' :: s3 => parseStep fuel (.arrLoop nesting acc2) (skipWs s3)
        | s2 => arrFinish acc2 s2

/-- parse_value (parson.c:466-488). -/
def parseValue (fuel nesting : ℕ) (s : List Char) : Option (JValue × List Char) :=
  parseStep fuel (.val nesting) s

/-- json_parse_string (parson.c:786-793): the first non-whitespace byte
must open an object or array, then parse_value runs at nesting 0 and any
trailing bytes are ignored. -/
def jsonParseString (s : List Char) : Option JValue :=
  match skipWs s with
  | [] => none
  | c :: r =>
    if c = lcub ∨ c = '[' then
      Option.map Prod.fst (parseValue (3 * (c :: r).length + 3) 0 (c :: r))
    else none

/-- JSON_Value_Type (declared in parson.h): the tag json_value_get_type
(parson.c:913-915) reports, with JSONError for a NULL value. -/
inductive JType where
  | error
  | null
  | boolean
  | number
  | string
  | array
  | object
deriving DecidableEq

/-- json_value_get_type (parson.c:913-915): NULL reads as JSONError. -/
def jsonTypeOf : Option JValue → JType
  | none => .error
  | some .null => .null
  | some (.bool _) => .boolean
  | some (.num _) => .number
  | some (.str _) => .string
  | some (.arr _) => .array
  | some (.obj _) => .object

/-- json_value_get_object (parson.c:917-919): the payload or NULL. -/
def jsonValueGetObject : Option JValue → Option (List (List Char × JValue))
  | some (.obj m) => some m
  | _ => none

/-- json_value_get_array (parson.c:921-923). -/
def jsonValueGetArray : Option JValue → Option (List JValue)
  | some (.arr l) => some l
  | _ => none

/-- json_value_get_string (parson.c:925-927): the payload or NULL. -/
def jsonValueGetString : Option JValue → Option (List Char)
  | some (.str s) => some s
  | _ => none

/-- json_value_get_number (parson.c:929-931): the payload or 0. -/
def jsonValueGetNumber : Option JValue → FV
  | some (.num v) => v
  | _ => .fin 0

/-- json_value_get_boolean (parson.c:933-935): the stored 0/1, or -1 for
an absent or non-boolean value. -/
def jsonValueGetBoolean : Option JValue → ℤ
  | some (.bool b) => if b then 1 else 0
  | _ => -1

/-- json_array_get_value (parson.c:882-886): bounds-checked indexing,
NULL when out of range. -/
def jsonArrayGetValue (items : List JValue) (ix : ℕ) : Option JValue :=
  items.get? ix

/-- Modelled from the spec: parson.h is not among the staged source
files.  It declares `JSON_Status` as `enum json_result_t { JSONSuccess =
0, JSONFailure = -1 }` (every parson revision carries these values) — the
"distinguished absent/error result per operation" of spec section 6. -/
def JSONSuccess : ℤ := 0

/-- Modelled from the spec: the JSON_Status failure signal declared in
parson.h, numerically -1. -/
def JSONFailure : ℤ := -1

/-- Size bound used for termination: a name lookup returns NULL or one of
the object's own values. -/
theorem sizeOf_getL_le (mems : List (List Char × JValue)) (k : List Char) :
    sizeOf (jsonObjectGetValueL mems k) ≤ sizeOf mems := by
  induction mems with
  | nil => simp [jsonObjectGetValueL]
  | cons p rest ih =>
    obtain ⟨a, b⟩ := p
    simp only [jsonObjectGetValueL]
    split
    · simp
      omega
    · simp only [List.cons.sizeOf_spec, Prod.mk.sizeOf_spec]
      omega

/-- Strict form of the lookup size bound, for a successful lookup. -/
theorem sizeOf_getL_lt {mems : List (List Char × JValue)} {k : List Char} {v : JValue}
    (h : jsonObjectGetValueL mems k = some v) : sizeOf v < sizeOf mems := by
  induction mems with
  | nil => simp [jsonObjectGetValueL] at h
  | cons p rest ih =>
    obtain ⟨a, b⟩ := p
    simp only [jsonObjectGetValueL] at h
    split at h
    · cases h
      simp
      omega
    · have := ih h
      simp only [List.cons.sizeOf_spec, Prod.mk.sizeOf_spec]
      omega

mutual

/-- json_value_equals (parson.c:1399-1458), 1 for equal and 0 for not.
Both arguments may be NULL (two NULLs read as JSONError and compare
equal). -/
def jsonValueEquals (a b : Option JValue) : ℤ :=
  if jsonTypeOf a ≠ jsonTypeOf b then 0
  else
    match a, b with
    | some (.arr xs), some (.arr ys) =>
      if xs.length ≠ ys.length then 0 else equalsItems xs ys
    | some (.obj ams), some (.obj bms) =>
      if ams.length ≠ bms.length then 0 else equalsMems ams ams bms
    | some (.str s1), some (.str s2) => if s1 = s2 then 1 else 0
    | some (.bool b1), some (.bool b2) => if b1 = b2 then 1 else 0
    | some (.num x), some (.num y) => if fvEqEps x y then 1 else 0
    | _, _ => 1
termination_by (sizeOf a, 0)
decreasing_by
all_goals exact Prod.Lex.left _ _ (by simp <;> omega)

/-- The array loop of json_value_equals: positional comparison (the
lengths were tested equal; a shorter right side would read as NULL and
compare unequal, matching the bounds-checked C getter). -/
def equalsItems : List JValue → List JValue → ℤ
  | [], _ => 1
  | _ :: _, [] => 0
  | x :: xs, y :: ys => if jsonValueEquals (some x) (some y) = 0 then 0 else equalsItems xs ys
termination_by xs ys => (sizeOf xs + 1, 0)
decreasing_by
all_goals exact Prod.Lex.left _ _ (by simp <;> omega)

/-- The object loop of json_value_equals: for each of a's names in order,
both sides are looked up by name (as the C does) and compared. -/
def equalsMems (iter ams bms : List (List Char × JValue)) : ℤ :=
  match iter with
  | [] => 1
  | (k, _) :: iter' =>
    if jsonValueEquals (jsonObjectGetValueL ams k) (jsonObjectGetValueL bms k) = 0 then 0
    else equalsMems iter' ams bms
termination_by (sizeOf ams + 1, sizeOf iter)
decreasing_by
· have h1 := sizeOf_getL_le ams k
  exact Prod.Lex.left _ _ (by omega)
· exact Prod.Lex.right _ (by simp <;> omega)

end

mutual

/-- json_validate (parson.c:1345-1397).  NULL arguments fail; a type
mismatch fails unless the schema is Null ("null represents all values");
containers recurse as their loops do; scalar schemas succeed. -/
def jsonValidate : Option JValue → Option JValue → ℤ
  | none, _ => JSONFailure
  | _, none => JSONFailure
  | some s, some v =>
    if jsonTypeOf (some s) ≠ jsonTypeOf (some v) ∧ jsonTypeOf (some s) ≠ JType.null
    then JSONFailure
    else
      match s, v with
      | .arr sarr, .arr varr =>
        match sarr with
        | [] => JSONSuccess
        | s0 :: _ => validateArrLoop s0 varr
      | .arr sarr, _ =>
        -- dead under the type guard; the C would loop over count(NULL) = 0
        match sarr with
        | [] => JSONSuccess
        | _ :: _ => JSONSuccess
      | .obj smems, .obj vmems =>
        if smems.length = 0 then JSONSuccess
        else if vmems.length < smems.length then JSONFailure
        else validateObjLoop smems smems vmems
      | .obj smems, _ =>
        -- dead under the type guard; count(NULL) = 0 is below a nonempty schema count
        if smems.length = 0 then JSONSuccess else JSONFailure
      | _, _ => JSONSuccess
termination_by s v => (sizeOf s + sizeOf v, 0)
decreasing_by
all_goals exact Prod.Lex.left _ _ (by simp <;> omega)

/-- The array loop of json_validate, with the comparison `== 0` exactly
as written at parson.c:1369. -/
def validateArrLoop (s0 : JValue) : List JValue → ℤ
  | [] => JSONSuccess
  | x :: rest =>
    if jsonValidate (some s0) (some x) = 0 then JSONFailure
    else validateArrLoop s0 rest
termination_by items => (sizeOf s0 + sizeOf items + 2, 0)
decreasing_by
all_goals exact Prod.Lex.left _ _ (by simp <;> omega)

/-- The object loop of json_validate (parson.c:1382-1390): each schema
name must be present in the value and its value must validate. -/
def validateObjLoop (iter smems vmems : List (List Char × JValue)) : ℤ :=
  match iter with
  | [] => JSONSuccess
  | (k, _) :: iter' =>
    match h : jsonObjectGetValueL vmems k with
    | none => JSONFailure
    | some vv =>
      if jsonValidate (jsonObjectGetValueL smems k) (some vv) = JSONFailure then JSONFailure
      else validateObjLoop iter' smems vmems
termination_by (sizeOf smems + sizeOf vmems + 2, sizeOf iter)
decreasing_by
· have h1 := sizeOf_getL_le smems k
  have h2 := sizeOf_getL_lt h
  have h3 : sizeOf (some vv) = 1 + sizeOf vv := by simp
  exact Prod.Lex.left _ _ (by omega)
· exact Prod.Lex.right _ (by simp <;> omega)

end

/-- The in-place branch of json_object_set_value (parson.c:1216-1223):
the first slot whose name strcmp-matches gets the new value; names and
order stay. -/
def replaceFirstValue : List (List Char × JValue) → List Char → JValue → List (List Char × JValue)
  | [], _, _ => []
  | (k, w) :: rest, name, v =>
    if k = name then (k, v) :: rest else (k, w) :: replaceFirstValue rest name v

/-- json_object_set_value (parson.c:1210-1227): replace in place when the
name is present (the old value is freed), else add. -/
def jsonObjectSetValue (mems : List (List Char × JValue)) (name : List Char) (v : JValue) :
    Option (List (List Char × JValue)) :=
  match jsonObjectGetValueL mems name with
  | some _ => some (replaceFirstValue mems name v)
  | none => jsonObjectAdd mems name v

/-- Finiteness of one modelled double. -/
def fvFinite : FV → Bool
  | .fin _ => true
  | _ => false

mutual

/-- Every Number in the tree is finite. -/
def allFinite : JValue → Bool
  | .null => true
  | .bool _ => true
  | .num v => fvFinite v
  | .str _ => true
  | .arr items => allFiniteItems items
  | .obj mems => allFiniteMems mems

/-- allFinite over an array's items. -/
def allFiniteItems : List JValue → Bool
  | [] => true
  | x :: r => allFinite x && allFiniteItems r

/-- allFinite over an object's values. -/
def allFiniteMems : List (List Char × JValue) → Bool
  | [] => true
  | p :: r => allFinite p.2 && allFiniteMems r

end

/-- Pairwise-distinct member names of one object level (the invariant
json_object_add maintains). -/
def namesDistinct : List (List Char × JValue) → Bool
  | [] => true
  | (k, _) :: rest => !(rest.any fun p => p.1 = k) && namesDistinct rest

mutual

/-- Every object anywhere in the tree has pairwise-distinct names, as
any tree built by the constructors or the parser does. -/
def uniqNames : JValue → Bool
  | .null => true
  | .bool _ => true
  | .num _ => true
  | .str _ => true
  | .arr items => uniqNamesItems items
  | .obj mems => namesDistinct mems && uniqNamesMems mems

/-- uniqNames over an array's items. -/
def uniqNamesItems : List JValue → Bool
  | [] => true
  | x :: r => uniqNames x && uniqNamesItems r

/-- uniqNames over an object's values. -/
def uniqNamesMems : List (List Char × JValue) → Bool
  | [] => true
  | p :: r => uniqNames p.2 && uniqNamesMems r

end

/-- The nesting test input: n opening brackets then n closing ones. -/
def nestedInput (n : ℕ) : List Char := List.replicate n '[' ++ List.replicate n ']'

/-- The value of `nestedInput (n+1)`: n+1 nested arrays, empty inside. -/
def deepArr : ℕ → JValue
  | 0 => .arr []
  | n + 1 => .arr [deepArr n]

/-- The 16-bit code unit of four hex digits, as sscanf %4x reads it. -/
def hexQuad (h1 h2 h3 h4 : Char) : ℕ :=
  ((hexVal h1 * 16 + hexVal h2) * 16 + hexVal h3) * 16 + hexVal h4

/-- The 4-byte UTF-8 encoding of a code point in [0x10000, 0x10FFFF]:
11110xxx 10xxxxxx 10xxxxxx 10xxxxxx over the 21 code-point bits. -/
def utf8Four (cp : ℕ) : List Char :=
  [Char.ofNat (0xF0 + cp / 0x40000),
   Char.ofNat (0x80 + cp / 0x1000 % 0x40),
   Char.ofNat (0x80 + cp / 0x40 % 0x40),
   Char.ofNat (0x80 + cp % 0x40)]

/-- A byte the serializer writes into a string body such that
process_string reads it back unchanged or decodes it from its escape:
bytes at or above 0x20 (0x22 and 0x5C travel escaped) and the seven
escaped control bytes; other control bytes make process_string fail on
reparse, and bytes above 0xFF do not exist in a C string. -/
def goodChar (c : Char) : Bool :=
  (32 ≤ c.toNat ∧ c.toNat < 256) ∨ c.toNat = 8 ∨ c.toNat = 9 ∨
    c.toNat = 10 ∨ c.toNat = 12 ∨ c.toNat = 13

/-- A string whose serialization reparses to itself byte for byte. -/
def goodStr (s : List Char) : Bool := s.all goodChar

/-- A double whose %d / %f rendering reparses to exactly the same value:
finite with at most six decimal places (%f prints six fraction digits,
so any other value is rounded in transit). -/
def goodNum : FV → Bool
  | .fin q => (q * 1000000).den = 1
  | _ => false

mutual

/-- The producible trees on which serialize-then-parse is lossless, at
the nesting counter `d` their parse_value call runs at: the nesting cap
admits the node, numbers reparse exactly, string bytes survive the
escape cycle, member names are distinct (json_object_add refuses a
duplicate), and the container sizes stay under the capacity caps. -/
def goodVal : ℕ → JValue → Bool
  | d, .null => decide (d ≤ 19)
  | d, .bool _ => decide (d ≤ 19)
  | d, .num f => decide (d ≤ 19) && goodNum f
  | d, .str s => decide (d ≤ 19) && goodStr s
  | d, .arr items =>
    decide (d ≤ 19) && decide (items.length ≤ 122880) && goodItems (d + 1) items
  | d, .obj mems =>
    decide (d ≤ 19) && decide (mems.length ≤ 960) && namesDistinct mems &&
      goodMems (d + 1) mems

/-- goodVal over an array's items. -/
def goodItems : ℕ → List JValue → Bool
  | _, [] => true
  | d, x :: t => goodVal d x && goodItems d t

/-- goodVal over an object's members, names included. -/
def goodMems : ℕ → List (List Char × JValue) → Bool
  | _, [] => true
  | d, (k, v) :: t => goodStr k && goodVal d v && goodMems d t

end

mutual

/-- The call-depth budget parseStep needs on the serialization of a
value: one step for the value dispatch, one for entering the container,
one per member-loop iteration. -/
def fuelV : JValue → ℕ
  | .arr items => 2 + fuelItems items
  | .obj mems => 2 + fuelMems mems
  | _ => 1

/-- fuelV over the member loop of an array. -/
def fuelItems : List JValue → ℕ
  | [] => 0
  | x :: t => 1 + max (fuelV x) (fuelItems t)

/-- fuelV over the member loop of an object. -/
def fuelMems : List (List Char × JValue) → ℕ
  | [] => 0
  | p :: t => 1 + max (fuelV p.2) (fuelMems t)

end

/-- A byte that may follow a serialized value without extending it: the
separators and closers the enclosing serializer emits next. -/
def stopChar (c : Char) : Prop := c = ',' ∨ c = ']' ∨ c = rcub

/-- What can follow a serialized number: end of input or a separator. -/
def stopRest (rest : List Char) : Prop :=
  rest = [] ∨ ∃ c r, rest = c :: r ∧ stopChar c

/-- Container root, the shape json_parse_string requires. -/
def isCont : JValue → Bool
  | .arr _ => true
  | .obj _ => true
  | _ => false

/-- The six zero-padded fraction digits %f prints for a value below one:
the layout of the fraction field of `fixed6`. -/
def fracChars (f : ℕ) : List Char :=
  List.replicate (6 - (natToChars f).length) '0' ++ natToChars f

/-! ## Theorems -/

/-- Structural induction over the nested value tree. -/
theorem JValue.indOn {P : JValue → Prop} (hnull : P .null) (hbool : ∀ b, P (.bool b))
    (hnum : ∀ v, P (.num v)) (hstr : ∀ s, P (.str s))
    (harr : ∀ items, (∀ x ∈ items, P x) → P (.arr items))
    (hobj : ∀ mems, (∀ p ∈ mems, P p.2) → P (.obj mems)) : ∀ v, P v
  | .null => hnull
  | .bool b => hbool b
  | .num v => hnum v
  | .str s => hstr s
  | .arr items => harr items (fun x hx => JValue.indOn hnull hbool hnum hstr harr hobj x)
  | .obj mems => hobj mems (fun p hp => JValue.indOn hnull hbool hnum hstr harr hobj p.2)
termination_by v => sizeOf v
decreasing_by
· have := List.sizeOf_lt_of_mem hx
  simp
  omega
· have := List.sizeOf_lt_of_mem hp
  obtain ⟨a, b⟩ := p
  simp_all
  omega

theorem escapeChar_length (c : Char) : (escapeChar c).length = escCount c := by
  unfold escapeChar escCount
  split_ifs <;> simp_all

theorem escapeList_length (s : List Char) : (escapeList s).length = parsonStrlen s := by
  induction s with
  | nil => rfl
  | cons c cs ih => simp [escapeList, parsonStrlen, escapeChar_length, ih]

theorem serializeString_length (s : List Char) :
    (serializeString s).length = parsonStrlen s + 2 := by
  simp [serializeString, escapeList_length]

theorem serializeItems_length (items : List JValue)
    (h : ∀ x ∈ items, (serializeValue x).length = sizeValue x) :
    (serializeItems items).length =
      (if 0 < items.length then items.length - 1 else 0) + sizeItems items := by
  induction items with
  | nil => simp [serializeItems, sizeItems]
  | cons x rest ih =>
    cases rest with
    | nil => simp [serializeItems, sizeItems, h x (by simp)]
    | cons y t =>
      have hx := h x (by simp)
      have ih2 := ih (fun z hz => h z (by simp [hz]))
      simp [serializeItems, sizeItems] at *
      omega

theorem serializeMems_length (mems : List (List Char × JValue))
    (h : ∀ p ∈ mems, (serializeValue p.2).length = sizeValue p.2) :
    (serializeMems mems).length =
      (if 0 < mems.length then 2 * mems.length - 1 else 0) + sizeMems mems := by
  induction mems with
  | nil => simp [serializeMems, sizeMems]
  | cons p rest ih =>
    obtain ⟨k, v⟩ := p
    cases rest with
    | nil =>
      have hv := h (k, v) (by simp)
      have hk := serializeString_length k
      simp [serializeMems, sizeMems] at *
      omega
    | cons m t =>
      have hv := h (k, v) (by simp)
      have hk := serializeString_length k
      have ih2 := ih (fun z hz => h z (by simp [hz]))
      simp [serializeMems, sizeMems] at *
      omega

theorem serializeValue_length (v : JValue) : (serializeValue v).length = sizeValue v := by
  induction v using JValue.indOn with
  | hnull => rfl
  | hbool b => cases b <;> rfl
  | hnum v => rfl
  | hstr s => simpa [serializeValue, sizeValue] using serializeString_length s
  | harr items h =>
    have h2 := serializeItems_length items h
    simp only [serializeValue, sizeValue, List.length_cons, List.length_append,
      List.length_nil]
    omega
  | hobj mems h =>
    have h2 := serializeMems_length mems h
    simp only [serializeValue, sizeValue, List.length_cons, List.length_append,
      List.length_nil]
    omega

/-- The claim C2: for every value tree, the byte length of the serialized
output equals the value reported by json_serialization_size minus the one
terminator byte it adds, over every variant and nesting. -/
theorem claim_C2_serialize_length (v : JValue) :
    (jsonSerializeToString v).length = jsonSerializationSize v - 1 := by
  simp [jsonSerializeToString, jsonSerializationSize, serializeValue_length]

/-- The claim C7 as written is false: on an absent or wrong-variant
argument the boolean getter returns -1 (a C truthy value, not a
false-equivalent) and the string getter returns NULL (absent), not the
empty string. -/
theorem claim_C7_counterexample :
    jsonValueGetBoolean (some JValue.null) = -1 ∧ (-1 : ℤ) ≠ 0 ∧
    jsonValueGetString (some (JValue.num (FV.fin 0))) = none ∧
    jsonValueGetString (some (JValue.num (FV.fin 0))) ≠ some [] :=
  ⟨rfl, by decide, rfl, by simp [jsonValueGetString]⟩

/-- The claim C7 amended: typed getters on an absent value or a value of
the wrong variant return fixed defaults without any failure signal — NULL
for the string getter, 0 for the number getter, -1 for the boolean
getter, NULL for the object and array getters — and the array getter
returns NULL on an out-of-range index. -/
theorem claim_C7_wrong_variant_defaults :
    (∀ ov : Option JValue,
      (jsonTypeOf ov ≠ JType.string → jsonValueGetString ov = none) ∧
      (jsonTypeOf ov ≠ JType.number → jsonValueGetNumber ov = FV.fin 0) ∧
      (jsonTypeOf ov ≠ JType.boolean → jsonValueGetBoolean ov = -1) ∧
      (jsonTypeOf ov ≠ JType.object → jsonValueGetObject ov = none) ∧
      (jsonTypeOf ov ≠ JType.array → jsonValueGetArray ov = none)) ∧
    (∀ (items : List JValue) (ix : ℕ), items.length ≤ ix → jsonArrayGetValue items ix = none) := by
  constructor
  · intro ov
    rcases ov with _ | v
    · simp [jsonTypeOf, jsonValueGetString, jsonValueGetNumber, jsonValueGetBoolean,
        jsonValueGetObject, jsonValueGetArray]
    · cases v <;>
        simp [jsonTypeOf, jsonValueGetString, jsonValueGetNumber, jsonValueGetBoolean,
          jsonValueGetObject, jsonValueGetArray]
  · intro items ix h
    simp only [jsonArrayGetValue]
    exact List.get?_eq_none.mpr h

/-- Witness for the amended C7 at concrete inputs. -/
theorem claim_C7_witness :
    jsonValueGetBoolean (some (JValue.num (FV.fin 0))) = -1 ∧ jsonArrayGetValue [] 0 = none :=
  ⟨(claim_C7_wrong_variant_defaults.1 (some (JValue.num (FV.fin 0)))).2.2.1 (by decide),
   claim_C7_wrong_variant_defaults.2 [] 0 (by decide)⟩

/-- The claim C9 against the code: on the spec's own example
validate(schema=[null], value=[1,"x",true]) the code returns JSONFailure,
because the array branch (parson.c:1369) compares the child's status to 0
— which is JSONSuccess — and fails on it; a non-conforming element
conversely passes, while an empty schema array does accept any array. -/
theorem claim_C9_validate_eval :
    jsonValidate (some (.arr [.null]))
        (some (.arr [.num (.fin 1), .str ['x'], .bool true])) = JSONFailure ∧
    jsonValidate (some (.arr [.num (.fin 0)])) (some (.arr [.str ['x']])) = JSONSuccess ∧
    jsonValidate (some (.arr [])) (some (.arr [.num (.fin 1)])) = JSONSuccess := by
  refine ⟨?_, ?_, ?_⟩ <;>
    simp [jsonValidate, validateArrLoop, jsonTypeOf, JSONSuccess, JSONFailure]

theorem replaceFirst_length (mems : List (List Char × JValue)) (k : List Char) (y : JValue) :
    (replaceFirstValue mems k y).length = mems.length := by
  induction mems with
  | nil => rfl
  | cons p rest ih =>
    obtain ⟨k0, v0⟩ := p
    simp only [replaceFirstValue]
    split <;> simp [ih]

theorem getL_of_get?_nodup {mems : List (List Char × JValue)} {k : List Char} {x : JValue}
    {i : ℕ} (hnodup : (mems.map Prod.fst).Nodup) (hi : mems.get? i = some (k, x)) :
    jsonObjectGetValueL mems k = some x := by
  induction mems generalizing i with
  | nil => simp at hi
  | cons p rest ih =>
    obtain ⟨k0, v0⟩ := p
    simp only [List.map_cons, List.nodup_cons] at hnodup
    cases i with
    | zero =>
      simp only [List.get?] at hi
      cases hi
      simp [jsonObjectGetValueL]
    | succ i =>
      simp only [List.get?] at hi
      have hk : k ∈ rest.map Prod.fst := by
        have hmem : (k, x) ∈ rest := List.get?_mem hi
        exact List.mem_map.mpr ⟨(k, x), hmem, rfl⟩
      have hne : k0 ≠ k := fun h => hnodup.1 (h ▸ hk)
      simp only [jsonObjectGetValueL, if_neg hne]
      exact ih hnodup.2 hi

theorem replaceFirst_get?_at {mems : List (List Char × JValue)} {k : List Char} {x : JValue}
    {i : ℕ} (y : JValue) (hnodup : (mems.map Prod.fst).Nodup)
    (hi : mems.get? i = some (k, x)) :
    (replaceFirstValue mems k y).get? i = some (k, y) := by
  induction mems generalizing i with
  | nil => simp at hi
  | cons p rest ih =>
    obtain ⟨k0, v0⟩ := p
    simp only [List.map_cons, List.nodup_cons] at hnodup
    cases i with
    | zero =>
      simp only [List.get?] at hi
      cases hi
      simp [replaceFirstValue]
    | succ i =>
      simp only [List.get?] at hi
      have hk : k ∈ rest.map Prod.fst := by
        have hmem : (k, x) ∈ rest := List.get?_mem hi
        exact List.mem_map.mpr ⟨(k, x), hmem, rfl⟩
      have hne : k0 ≠ k := fun h => hnodup.1 (h ▸ hk)
      simp only [replaceFirstValue, if_neg hne, List.get?]
      exact ih hnodup.2 hi

theorem replaceFirst_get?_other {mems : List (List Char × JValue)} {k : List Char} {x : JValue}
    {i : ℕ} (y : JValue) (hnodup : (mems.map Prod.fst).Nodup)
    (hi : mems.get? i = some (k, x)) :
    ∀ j, j ≠ i → (replaceFirstValue mems k y).get? j = mems.get? j := by
  induction mems generalizing i with
  | nil => simp [replaceFirstValue]
  | cons p rest ih =>
    obtain ⟨k0, v0⟩ := p
    simp only [List.map_cons, List.nodup_cons] at hnodup
    intro j hj
    cases i with
    | zero =>
      simp only [List.get?] at hi
      cases hi
      cases j with
      | zero => exact absurd rfl hj
      | succ j => simp [replaceFirstValue]
    | succ i =>
      simp only [List.get?] at hi
      have hk : k ∈ rest.map Prod.fst := by
        have hmem : (k, x) ∈ rest := List.get?_mem hi
        exact List.mem_map.mpr ⟨(k, x), hmem, rfl⟩
      have hne : k0 ≠ k := fun h => hnodup.1 (h ▸ hk)
      cases j with
      | zero => simp [replaceFirstValue, if_neg hne]
      | succ j =>
        simp only [replaceFirstValue, if_neg hne, List.get?]
        exact ih hnodup.2 hi j (fun h => hj (by simp [h]))

theorem getL_replaceFirst {mems : List (List Char × JValue)} {k : List Char}
    (y : JValue) (h : (jsonObjectGetValueL mems k).isSome) :
    jsonObjectGetValueL (replaceFirstValue mems k y) k = some y := by
  induction mems with
  | nil => simp [jsonObjectGetValueL] at h
  | cons p rest ih =>
    obtain ⟨k0, v0⟩ := p
    by_cases hk : k0 = k
    · subst hk
      simp [replaceFirstValue, jsonObjectGetValueL]
    · simp only [jsonObjectGetValueL, if_neg hk] at h
      simp only [replaceFirstValue, if_neg hk, jsonObjectGetValueL, if_neg hk]
      exact ih h

/-- The claim C10: setting a name that an object already holds (at slot
i) succeeds and replaces in place — afterwards the lookup yields the new
value, slot i still holds the same name, every other slot is unchanged,
and the count is unchanged. -/
theorem claim_C10_object_set_replace
    (mems : List (List Char × JValue)) (k : List Char) (y x : JValue) (i : ℕ)
    (hnodup : (mems.map Prod.fst).Nodup) (hi : mems.get? i = some (k, x)) :
    ∃ mems', jsonObjectSetValue mems k y = some mems' ∧
      mems'.length = mems.length ∧
      mems'.get? i = some (k, y) ∧
      (∀ j, j ≠ i → mems'.get? j = mems.get? j) ∧
      jsonObjectGetValueL mems' k = some y := by
  have hfound := getL_of_get?_nodup hnodup hi
  refine ⟨replaceFirstValue mems k y, ?_, replaceFirst_length mems k y,
    replaceFirst_get?_at y hnodup hi, replaceFirst_get?_other y hnodup hi,
    getL_replaceFirst y (by simp [hfound])⟩
  simp [jsonObjectSetValue, hfound]

/-- Witness for C10 at a concrete two-member object. -/
theorem claim_C10_witness :
    ∃ mems', jsonObjectSetValue [(['a'], JValue.null), (['b'], JValue.bool true)]
        ['b'] (JValue.num (FV.fin 2)) = some mems' ∧
      mems'.length = [(['a'], JValue.null), (['b'], JValue.bool true)].length ∧
      mems'.get? 1 = some (['b'], JValue.num (FV.fin 2)) ∧
      (∀ j, j ≠ 1 → mems'.get? j = [(['a'], JValue.null), (['b'], JValue.bool true)].get? j) ∧
      jsonObjectGetValueL mems' ['b'] = some (JValue.num (FV.fin 2)) :=
  claim_C10_object_set_replace [(['a'], JValue.null), (['b'], JValue.bool true)]
    ['b'] (JValue.num (FV.fin 2)) (JValue.bool true) 1 (by simp) rfl

/-- The claim C3 as written is false on the code: the number token
`-inf`, reached through the `-` dispatch of parse_value, is accepted by
strtod and passes is_decimal (no leading zero, no x), so `[-inf]` parses
to an array holding negative infinity; and the serializer has no
non-finite check at all — it emits what sprintf %f prints ("inf") and
reports no failure. -/
theorem claim_C3_counterexample :
    jsonParseString ("[-inf]".toList) = some (.arr [.num (.inf true)]) ∧
    jsonSerializeToString (.num (.inf false)) = ['i', 'n', 'f'] :=
  ⟨rfl, rfl⟩

/-- The claim C3 amended: bare `nan` and `inf` tokens fail (the `n`
dispatch expects `null` and `i` has no dispatch case), but `-inf` and
`-nan` parse successfully as non-finite Numbers through the `-` dispatch;
and serializing a non-finite Number does not report failure — the emitted
bytes are sprintf's non-JSON renderings, whose lengths the size pass
reports consistently. -/
theorem claim_C3_nonfinite :
    jsonParseString ("[nan]".toList) = none ∧
    jsonParseString ("[inf]".toList) = none ∧
    jsonParseString ("[-inf]".toList) = some (.arr [.num (.inf true)]) ∧
    jsonParseString ("[-nan]".toList) = some (.arr [.num .nan]) ∧
    jsonSerializeToString (.num (.inf false)) = ['i', 'n', 'f'] ∧
    jsonSerializeToString (.num (.inf true)) = ['-', 'i', 'n', 'f'] ∧
    jsonSerializeToString (.num .nan) = ['n', 'a', 'n'] ∧
    jsonSerializationSize (.num .nan) = 4 :=
  ⟨rfl, rfl, rfl, rfl, rfl, rfl, rfl, rfl⟩

/-- The claim C4 as written is false on the code: an input of 20 nested
containers parses successfully (the innermost parse_value call carries
nesting 19, which does not exceed MAX_NESTING). -/
theorem claim_C4_counterexample :
    jsonParseString (nestedInput 20) = some (deepArr 19) := rfl

/-- The claim C4 amended: any parse_value call whose incoming nesting
exceeds MAX_NESTING = 19 fails, so inputs fail from 21 nested containers
on, while 20 nested containers still parse. -/
theorem claim_C4_nesting :
    (∀ (fuel nesting : ℕ) (s : List Char), 19 < nesting →
      parseValue (fuel + 1) nesting s = none) ∧
    jsonParseString (nestedInput 20) = some (deepArr 19) ∧
    jsonParseString (nestedInput 21) = none := by
  refine ⟨?_, rfl, rfl⟩
  intro fuel nesting s h
  simp [parseValue, parseStep, h]

/-- Witness for the deep-call clause of C4. -/
theorem claim_C4_witness : 19 < 20 ∧ parseValue 1 20 ['['] = none :=
  ⟨by decide, claim_C4_nesting.1 0 20 ['['] (by decide)⟩

/-- The claim C6: the decimal-only guard rejects exactly the spans the
spec lists — length at least 2 beginning with `0` not followed by `.`,
beginning with `-0` followed by a character other than `.`, or containing
`x`/`X` — a rejected span makes parse_number_value fail, `01` and `-01`
fail, and `0`, `0.5`, `-0.5`, `1e10`, `-1.25e-3` parse to the expected
Numbers. -/
theorem claim_C6_number_guard :
    (∀ s : List Char, isDecimal s = false ↔
      ((2 ≤ s.length ∧ s.getD 0 ' ' = '0' ∧ s.getD 1 ' ' ≠ '.') ∨
       (3 ≤ s.length ∧ s.take 2 = ['-', '0'] ∧ s.getD 2 ' ' ≠ '.') ∨
       (∃ c ∈ s, c = 'x' ∨ c = 'X'))) ∧
    (∀ s : List Char, isDecimal (s.take (s.length - (strtod s).2.length)) = false →
      parseNumberValue s = none) ∧
    parseNumberValue ("01".toList) = none ∧
    parseNumberValue ("-01".toList) = none ∧
    parseNumberValue ("0".toList) = some (.num (.fin 0), []) ∧
    parseNumberValue ("0.5".toList) = some (.num (.fin (1 / 2)), []) ∧
    parseNumberValue ("-0.5".toList) = some (.num (.fin (-(1 / 2))), []) ∧
    parseNumberValue ("1e10".toList) = some (.num (.fin 10000000000), []) ∧
    parseNumberValue ("-1.25e-3".toList) = some (.num (.fin (-(1 / 800))), []) := by
  refine ⟨?_, ?_, by with_unfolding_all rfl, by with_unfolding_all rfl,
    by with_unfolding_all rfl, by with_unfolding_all rfl, by with_unfolding_all rfl,
    by with_unfolding_all rfl, by with_unfolding_all rfl⟩
  · intro s
    unfold isDecimal
    split_ifs with h1 h2
    · exact iff_of_true rfl (Or.inl h1)
    · exact iff_of_true rfl (Or.inr (Or.inl h2))
    · simp only [Bool.not_eq_false', List.any_eq_true, decide_eq_true_eq]
      constructor
      · intro h
        exact Or.inr (Or.inr h)
      · rintro (h | h | h)
        · exact absurd h h1
        · exact absurd h h2
        · exact h
  · intro s h
    unfold parseNumberValue
    simp [h]

/-- Witness for the guard clause of C6 at the span of `01`. -/
theorem claim_C6_witness :
    isDecimal (("01".toList).take ("01".toList.length - (strtod ("01".toList)).2.length)) = false ∧
    parseNumberValue ("01".toList) = none :=
  ⟨by with_unfolding_all rfl,
   claim_C6_number_guard.2.1 ("01".toList) (by with_unfolding_all rfl)⟩

theorem shiftLeft_lor_eq_add {a b n : ℕ} (hb : b < 2 ^ n) :
    (a <<< n) ||| b = a * 2 ^ n + b := by
  apply Nat.eq_of_testBit_eq
  intro j
  rw [Nat.testBit_lor, Nat.shiftLeft_eq, mul_comm a (2 ^ n),
    Nat.testBit_mul_pow_two_add a hb j, Nat.testBit_mul_pow_two]
  by_cases h : j < n
  · simp [h, show ¬ j ≥ n from by omega]
  · have hbj : b.testBit j = false :=
      Nat.testBit_lt_two_pow (lt_of_lt_of_le hb (Nat.pow_le_pow_right (by norm_num) (by omega)))
    simp [h, show j ≥ n from by omega, hbj]

theorem lor_240 {x : ℕ} (h : x < 8) : x ||| 240 = 240 + x := by
  interval_cases x <;> rfl

theorem lor_128 {x : ℕ} (h : x < 64) : x ||| 128 = 128 + x := by
  interval_cases x <;> rfl

/-- The four bytes parse_utf_16 assembles for a surrogate pair are the
4-byte UTF-8 encoding of the combined code point. -/
theorem utf8_pair_encode {u v : ℕ} (hu : u < 1024) (hv : v < 1024) :
    [Char.ofNat ((((((u &&& 0x3FF) <<< 10) ||| (v &&& 0x3FF)) + 0x10000) >>> 18 &&& 0x07) ||| 0xF0),
     Char.ofNat ((((((u &&& 0x3FF) <<< 10) ||| (v &&& 0x3FF)) + 0x10000) >>> 12 &&& 0x3F) ||| 0x80),
     Char.ofNat ((((((u &&& 0x3FF) <<< 10) ||| (v &&& 0x3FF)) + 0x10000) >>> 6 &&& 0x3F) ||| 0x80),
     Char.ofNat ((((((u &&& 0x3FF) <<< 10) ||| (v &&& 0x3FF)) + 0x10000) &&& 0x3F) ||| 0x80)] =
    utf8Four (0x10000 + ((u <<< 10) ||| v)) := by
  have e1 : u &&& 0x3FF = u := by
    have h10 := Nat.and_pow_two_sub_one_eq_mod u 10
    norm_num at h10
    rw [h10]
    exact Nat.mod_eq_of_lt hu
  have e2 : v &&& 0x3FF = v := by
    have h10 := Nat.and_pow_two_sub_one_eq_mod v 10
    norm_num at h10
    rw [h10]
    exact Nat.mod_eq_of_lt hv
  have e3 : (u <<< 10) ||| v = u * 1024 + v := by
    have hv10 : v < 2 ^ 10 := by norm_num [hv]
    have h := @shiftLeft_lor_eq_add u v 10 hv10
    simpa using h
  rw [e1, e2, e3]
  have s18 : ∀ m : ℕ, m >>> 18 = m / 262144 := fun m => by
    rw [Nat.shiftRight_eq_div_pow]
  have s12 : ∀ m : ℕ, m >>> 12 = m / 4096 := fun m => by
    rw [Nat.shiftRight_eq_div_pow]
  have s6 : ∀ m : ℕ, m >>> 6 = m / 64 := fun m => by
    rw [Nat.shiftRight_eq_div_pow]
  have a07 : ∀ m : ℕ, m &&& 0x07 = m % 8 := fun m => by
    have h := Nat.and_pow_two_sub_one_eq_mod m 3
    norm_num at h
    exact h
  have a3f : ∀ m : ℕ, m &&& 0x3F = m % 64 := fun m => by
    have h := Nat.and_pow_two_sub_one_eq_mod m 6
    norm_num at h
    exact h
  rw [s18, s12, s6, a07, a3f, a3f, a3f,
    lor_240 (by omega), lor_128 (by omega), lor_128 (by omega), lor_128 (by omega)]
  unfold utf8Four
  simp only [List.cons.injEq, and_true]
  refine ⟨?_, ?_, ?_, ?_⟩ <;> exact congrArg Char.ofNat (by omega)

/-- The claim C5: a \uXXXX escape whose code unit is a high surrogate
must be followed by exactly `\u` and four hex digits forming a low
surrogate, and the pair is emitted as the 4-byte UTF-8 encoding of
0x10000 + (((high - 0xD800) << 10) | (low - 0xDC00)); a lone high
surrogate, a lone low surrogate, or a high surrogate followed by a
non-low-surrogate escape makes the string processing (and hence the
parse) fail. -/
theorem claim_C5_surrogate_pairs :
    (∀ (h1 h2 h3 h4 t1 t2 t3 t4 : Char) (r : List Char),
      isxdigitC h1 = true → isxdigitC h2 = true → isxdigitC h3 = true → isxdigitC h4 = true →
      isxdigitC t1 = true → isxdigitC t2 = true → isxdigitC t3 = true → isxdigitC t4 = true →
      0xD800 ≤ hexQuad h1 h2 h3 h4 → hexQuad h1 h2 h3 h4 ≤ 0xDBFF →
      0xDC00 ≤ hexQuad t1 t2 t3 t4 → hexQuad t1 t2 t3 t4 ≤ 0xDFFF →
      parseUtf16 ('u' :: h1 :: h2 :: h3 :: h4 :: '\\' :: 'u' :: t1 :: t2 :: t3 :: t4 :: r) =
        some (utf8Four (0x10000 +
          (((hexQuad h1 h2 h3 h4 - 0xD800) <<< 10) ||| (hexQuad t1 t2 t3 t4 - 0xDC00))), 11, r)) ∧
    processString ("\\uD800".toList) 6 = none ∧
    processString ("\\uDC00".toList) 6 = none ∧
    processString ("\\uD800\\u0041".toList) 12 = none ∧
    jsonParseString ("[\"\\uD800\"]".toList) = none ∧
    jsonParseString ("[\"\\uDC00\"]".toList) = none ∧
    jsonParseString ("[\"\\uD800\\u0041\"]".toList) = none := by
  refine ⟨?_, rfl, rfl, rfl, rfl, rfl, rfl⟩
  intro h1 h2 h3 h4 t1 t2 t3 t4 r hx1 hx2 hx3 hx4 hx5 hx6 hx7 hx8 hcp1 hcp2 htr1 htr2
  unfold hexQuad at hcp1 hcp2 htr1 htr2
  simp only [parseUtf16, hx1, hx2, hx3, hx4, hx5, hx6, hx7, hx8, and_self, if_true]
  rw [if_neg (by omega), if_neg (by omega), if_neg (by omega), if_pos (by omega),
    if_pos (by omega)]
  have hu : hexQuad h1 h2 h3 h4 - 0xD800 < 1024 := by unfold hexQuad; omega
  have hv : hexQuad t1 t2 t3 t4 - 0xDC00 < 1024 := by unfold hexQuad; omega
  have hb := @utf8_pair_encode (hexQuad h1 h2 h3 h4 - 0xD800) (hexQuad t1 t2 t3 t4 - 0xDC00) hu hv
  unfold hexQuad at hb
  rw [Option.some.injEq, Prod.mk.injEq, Prod.mk.injEq]
  refine ⟨?_, rfl, rfl⟩
  unfold hexQuad
  rw [← hb]

/-- Witness for the surrogate-pair clause of C5, at D800 followed by DC00. -/
theorem claim_C5_witness :
    parseUtf16 ('u' :: 'D' :: '8' :: '0' :: '0' :: '\\' :: 'u' :: 'D' :: 'C' :: '0' :: '0' :: []) =
      some (utf8Four (0x10000 +
        (((hexQuad 'D' '8' '0' '0' - 0xD800) <<< 10) ||| (hexQuad 'D' 'C' '0' '0' - 0xDC00))),
        11, []) :=
  claim_C5_surrogate_pairs.1 'D' '8' '0' '0' 'D' 'C' '0' '0' []
    rfl rfl rfl rfl rfl rfl rfl rfl (by decide) (by decide) (by decide) (by decide)

theorem equals_none_none : jsonValueEquals none none = 1 := by
  simp [jsonValueEquals, jsonTypeOf]

theorem equals_some_none (v : JValue) : jsonValueEquals (some v) none = 0 := by
  cases v <;> simp [jsonValueEquals, jsonTypeOf]

theorem equals_none_some (v : JValue) : jsonValueEquals none (some v) = 0 := by
  cases v <;> simp [jsonValueEquals, jsonTypeOf]

theorem equals_mismatch {a b : Option JValue} (h : jsonTypeOf a ≠ jsonTypeOf b) :
    jsonValueEquals a b = 0 := by
  rw [jsonValueEquals.eq_def]
  simp [h]

theorem equals_null_null : jsonValueEquals (some .null) (some .null) = 1 := by
  simp [jsonValueEquals, jsonTypeOf]

theorem equals_bool_bool (b1 b2 : Bool) :
    jsonValueEquals (some (.bool b1)) (some (.bool b2)) = if b1 = b2 then 1 else 0 := by
  simp [jsonValueEquals, jsonTypeOf]

theorem equals_num_num (x y : FV) :
    jsonValueEquals (some (.num x)) (some (.num y)) = if fvEqEps x y then 1 else 0 := by
  simp [jsonValueEquals, jsonTypeOf]

theorem equals_str_str (s1 s2 : List Char) :
    jsonValueEquals (some (.str s1)) (some (.str s2)) = if s1 = s2 then 1 else 0 := by
  simp [jsonValueEquals, jsonTypeOf]

theorem equals_arr_arr (xs ys : List JValue) :
    jsonValueEquals (some (.arr xs)) (some (.arr ys)) =
      if xs.length ≠ ys.length then 0 else equalsItems xs ys := by
  simp [jsonValueEquals, jsonTypeOf]

theorem equals_obj_obj (ams bms : List (List Char × JValue)) :
    jsonValueEquals (some (.obj ams)) (some (.obj bms)) =
      if ams.length ≠ bms.length then 0 else equalsMems ams ams bms := by
  simp [jsonValueEquals, jsonTypeOf]

theorem equalsItems_nil (ys : List JValue) : equalsItems [] ys = 1 := by
  simp [equalsItems]

theorem equalsItems_cons (x : JValue) (xs : List JValue) (y : JValue) (ys : List JValue) :
    equalsItems (x :: xs) (y :: ys) =
      if jsonValueEquals (some x) (some y) = 0 then 0 else equalsItems xs ys := by
  simp [equalsItems]

theorem equalsMems_nil (ams bms : List (List Char × JValue)) : equalsMems [] ams bms = 1 := by
  simp [equalsMems]

theorem equalsMems_cons (k : List Char) (w : JValue) (iter ams bms : List (List Char × JValue)) :
    equalsMems ((k, w) :: iter) ams bms =
      if jsonValueEquals (jsonObjectGetValueL ams k) (jsonObjectGetValueL bms k) = 0 then 0
      else equalsMems iter ams bms := by
  rw [equalsMems.eq_def]

theorem getL_mem {mems : List (List Char × JValue)} {k : List Char} {v : JValue}
    (h : jsonObjectGetValueL mems k = some v) : (k, v) ∈ mems := by
  induction mems with
  | nil => simp [jsonObjectGetValueL] at h
  | cons p rest ih =>
    obtain ⟨k0, v0⟩ := p
    simp only [jsonObjectGetValueL] at h
    split at h
    · rename_i hk
      cases h
      subst hk
      simp
    · exact List.mem_cons_of_mem _ (ih h)

theorem getL_key_mem {mems : List (List Char × JValue)} {k : List Char} {v : JValue}
    (h : jsonObjectGetValueL mems k = some v) : k ∈ mems.map Prod.fst :=
  List.mem_map.mpr ⟨(k, v), getL_mem h, rfl⟩

theorem getL_isSome_of_key {mems : List (List Char × JValue)} {k : List Char}
    (h : k ∈ mems.map Prod.fst) : ∃ v, jsonObjectGetValueL mems k = some v := by
  induction mems with
  | nil => simp at h
  | cons p rest ih =>
    obtain ⟨k0, v0⟩ := p
    by_cases hk : k0 = k
    · exact ⟨v0, by simp [jsonObjectGetValueL, hk]⟩
    · simp only [List.map_cons, List.mem_cons] at h
      rcases h with h | h
      · exact absurd h.symm hk
      · obtain ⟨v, hv⟩ := ih h
        exact ⟨v, by simp [jsonObjectGetValueL, hk, hv]⟩

theorem namesDistinct_iff (mems : List (List Char × JValue)) :
    namesDistinct mems = true ↔ (mems.map Prod.fst).Nodup := by
  induction mems with
  | nil => simp [namesDistinct]
  | cons p rest ih =>
    obtain ⟨k, v⟩ := p
    simp only [namesDistinct, Bool.and_eq_true, Bool.not_eq_true', List.map_cons,
      List.nodup_cons, ih, List.any_eq_false, List.mem_map]
    constructor
    · rintro ⟨h1, h2⟩
      refine ⟨?_, h2⟩
      rintro ⟨q, hq, hqk⟩
      have := h1 q hq
      simp [hqk] at this
    · rintro ⟨h1, h2⟩
      refine ⟨?_, h2⟩
      intro q hq
      first
        | (simp only [decide_eq_false_iff_not]
           intro hqk
           exact h1 ⟨q, hq, hqk⟩)
        | (intro hqk
           exact h1 ⟨q, hq, of_decide_eq_true hqk⟩)

theorem allFiniteItems_mem {items : List JValue} (h : allFiniteItems items = true)
    {x : JValue} (hx : x ∈ items) : allFinite x = true := by
  induction items with
  | nil => simp at hx
  | cons y rest ih =>
    simp only [allFiniteItems, Bool.and_eq_true] at h
    rcases List.mem_cons.mp hx with rfl | hx
    · exact h.1
    · exact ih h.2 hx

theorem allFiniteMems_mem {mems : List (List Char × JValue)} (h : allFiniteMems mems = true)
    {p : List Char × JValue} (hp : p ∈ mems) : allFinite p.2 = true := by
  induction mems with
  | nil => simp at hp
  | cons q rest ih =>
    simp only [allFiniteMems, Bool.and_eq_true] at h
    rcases List.mem_cons.mp hp with rfl | hp
    · exact h.1
    · exact ih h.2 hp

theorem uniqNamesItems_mem {items : List JValue} (h : uniqNamesItems items = true)
    {x : JValue} (hx : x ∈ items) : uniqNames x = true := by
  induction items with
  | nil => simp at hx
  | cons y rest ih =>
    simp only [uniqNamesItems, Bool.and_eq_true] at h
    rcases List.mem_cons.mp hx with rfl | hx
    · exact h.1
    · exact ih h.2 hx

theorem uniqNamesMems_mem {mems : List (List Char × JValue)} (h : uniqNamesMems mems = true)
    {p : List Char × JValue} (hp : p ∈ mems) : uniqNames p.2 = true := by
  induction mems with
  | nil => simp at hp
  | cons q rest ih =>
    simp only [uniqNamesMems, Bool.and_eq_true] at h
    rcases List.mem_cons.mp hp with rfl | hp
    · exact h.1
    · exact ih h.2 hp

theorem equalsItems_range (xs : List JValue) : ∀ ys,
    equalsItems xs ys = 0 ∨ equalsItems xs ys = 1 := by
  induction xs with
  | nil => intro ys; right; exact equalsItems_nil ys
  | cons x xs ih =>
    intro ys
    cases ys with
    | nil => left; simp [equalsItems]
    | cons y ys =>
      rw [equalsItems_cons]
      split_ifs
      · left; rfl
      · exact ih ys

theorem equalsMems_range (iter ams bms : List (List Char × JValue)) :
    equalsMems iter ams bms = 0 ∨ equalsMems iter ams bms = 1 := by
  induction iter with
  | nil => right; exact equalsMems_nil ams bms
  | cons p rest ih =>
    obtain ⟨k, w⟩ := p
    rw [equalsMems_cons]
    split_ifs
    · left; rfl
    · exact ih

theorem equals_range (a b : Option JValue) :
    jsonValueEquals a b = 0 ∨ jsonValueEquals a b = 1 := by
  rcases a with _ | x
  · rcases b with _ | y
    · right; exact equals_none_none
    · left; exact equals_none_some y
  · rcases b with _ | y
    · left; exact equals_some_none x
    · by_cases h : jsonTypeOf (some x) = jsonTypeOf (some y)
      · cases x <;> cases y <;> simp [jsonTypeOf] at h <;>
          first
            | (right; exact equals_null_null)
            | (rw [equals_bool_bool]; split_ifs <;> simp)
            | (rw [equals_num_num]; split_ifs <;> simp)
            | (rw [equals_str_str]; split_ifs <;> simp)
            | (rw [equals_arr_arr]; split_ifs <;> first | simp | exact equalsItems_range _ _)
            | (rw [equals_obj_obj]; split_ifs <;> first | simp | exact equalsMems_range _ _ _)
      · left; exact equals_mismatch h

theorem equalsMems_eq_one_iff (iter ams bms : List (List Char × JValue)) :
    equalsMems iter ams bms = 1 ↔
      ∀ p ∈ iter,
        jsonValueEquals (jsonObjectGetValueL ams p.1) (jsonObjectGetValueL bms p.1) ≠ 0 := by
  induction iter with
  | nil => simp [equalsMems_nil]
  | cons p rest ih =>
    obtain ⟨k, w⟩ := p
    rw [equalsMems_cons]
    split_ifs with h
    · constructor
      · intro h0; exact absurd h0 (by norm_num)
      · intro hall; exact absurd h (hall (k, w) (by simp))
    · simp only [List.forall_mem_cons]
      rw [ih]
      simp [h]

theorem fvEqEps_comm (x y : FV) : fvEqEps x y = fvEqEps y x := by
  cases x <;> cases y <;> simp [fvEqEps, abs_sub_comm]

theorem equalsItems_self (xs : List JValue)
    (h : ∀ x ∈ xs, jsonValueEquals (some x) (some x) = 1) : equalsItems xs xs = 1 := by
  induction xs with
  | nil => exact equalsItems_nil []
  | cons x rest ih =>
    rw [equalsItems_cons, if_neg (by rw [h x (by simp)]; norm_num)]
    exact ih (fun z hz => h z (by simp [hz]))

theorem equalsMems_self (iter ams : List (List Char × JValue))
    (h : ∀ k v, jsonObjectGetValueL ams k = some v → jsonValueEquals (some v) (some v) = 1) :
    equalsMems iter ams ams = 1 := by
  induction iter with
  | nil => exact equalsMems_nil _ _
  | cons p rest ih =>
    obtain ⟨k, w⟩ := p
    rw [equalsMems_cons]
    cases hg : jsonObjectGetValueL ams k with
    | none => rw [if_neg (by rw [equals_none_none]; norm_num)]; exact ih
    | some v => rw [if_neg (by rw [h k v hg]; norm_num)]; exact ih

theorem equals_refl (v : JValue) (hf : allFinite v = true) :
    jsonValueEquals (some v) (some v) = 1 := by
  induction v using JValue.indOn with
  | hnull => exact equals_null_null
  | hbool b => rw [equals_bool_bool]; simp
  | hnum x =>
    simp only [allFinite] at hf
    cases x with
    | fin q =>
      have hc : fvEqEps (.fin q) (.fin q) = true := by norm_num [fvEqEps]
      rw [equals_num_num, if_pos hc]
    | inf b => simp [fvFinite] at hf
    | nan => simp [fvFinite] at hf
  | hstr s => rw [equals_str_str]; simp
  | harr items hIH =>
    rw [equals_arr_arr, if_neg (by simp)]
    refine equalsItems_self items (fun x hx => hIH x hx ?_)
    exact allFiniteItems_mem (by simpa [allFinite] using hf) hx
  | hobj mems hIH =>
    rw [equals_obj_obj, if_neg (by simp)]
    refine equalsMems_self mems mems (fun k v hg => ?_)
    have hmem := getL_mem hg
    exact hIH (k, v) hmem (allFiniteMems_mem (by simpa [allFinite] using hf) hmem)

theorem equalsItems_symm (xs : List JValue) : ∀ ys : List JValue, xs.length = ys.length →
    (∀ x ∈ xs, ∀ y ∈ ys, jsonValueEquals (some x) (some y) = jsonValueEquals (some y) (some x)) →
    equalsItems xs ys = equalsItems ys xs := by
  induction xs with
  | nil =>
    intro ys h _
    cases ys with
    | nil => rfl
    | cons _ _ => simp at h
  | cons x xs ih =>
    intro ys hlen hsym
    cases ys with
    | nil => simp at hlen
    | cons y ys =>
      rw [equalsItems_cons, equalsItems_cons, hsym x (by simp) y (by simp)]
      split_ifs with h
      · rfl
      · exact ih ys (by simpa using hlen)
          (fun a ha b hb => hsym a (by simp [ha]) b (by simp [hb]))

theorem equalsMems_flip (xms yms : List (List Char × JValue))
    (hlen : xms.length = yms.length)
    (hndx : (xms.map Prod.fst).Nodup) (hndy : (yms.map Prod.fst).Nodup)
    (hsym : ∀ k v w, jsonObjectGetValueL xms k = some v → jsonObjectGetValueL yms k = some w →
      jsonValueEquals (some v) (some w) = jsonValueEquals (some w) (some v))
    (h1 : equalsMems xms xms yms = 1) : equalsMems yms yms xms = 1 := by
  rw [equalsMems_eq_one_iff] at h1 ⊢
  have hsub : ∀ k ∈ xms.map Prod.fst, k ∈ yms.map Prod.fst := by
    intro k hk
    obtain ⟨v, hv⟩ := getL_isSome_of_key hk
    obtain ⟨p, hp, hpk⟩ := List.mem_map.mp hk
    have hne := h1 p hp
    rw [hpk, hv] at hne
    cases hgy : jsonObjectGetValueL yms k with
    | none => rw [hgy, equals_some_none] at hne; exact absurd rfl hne
    | some w => exact getL_key_mem hgy
  have hset : ∀ k ∈ yms.map Prod.fst, k ∈ xms.map Prod.fst := by
    have hcx : (xms.map Prod.fst).toFinset.card = xms.length := by
      rw [List.toFinset_card_of_nodup hndx, List.length_map]
    have hcy : (yms.map Prod.fst).toFinset.card = yms.length := by
      rw [List.toFinset_card_of_nodup hndy, List.length_map]
    have hsubF : (xms.map Prod.fst).toFinset ⊆ (yms.map Prod.fst).toFinset := by
      intro k hk
      rw [List.mem_toFinset] at hk ⊢
      exact hsub k hk
    have hEq : (xms.map Prod.fst).toFinset = (yms.map Prod.fst).toFinset :=
      Finset.eq_of_subset_of_card_le hsubF (by omega)
    intro k hk
    rw [← List.mem_toFinset, ← hEq, List.mem_toFinset] at hk
    exact hk
  intro p hp
  have hk : p.1 ∈ yms.map Prod.fst := List.mem_map.mpr ⟨p, hp, rfl⟩
  have hkx : p.1 ∈ xms.map Prod.fst := hset p.1 hk
  obtain ⟨v, hv⟩ := getL_isSome_of_key hkx
  obtain ⟨w, hw⟩ := getL_isSome_of_key hk
  obtain ⟨q, hq, hqk⟩ := List.mem_map.mp hkx
  have h1k := h1 q hq
  rw [hqk, hv, hw] at h1k
  rw [hv, hw, ← hsym p.1 v w hv hw]
  exact h1k

theorem equals_symm (a : JValue) : ∀ b : JValue, uniqNames a = true → uniqNames b = true →
    jsonValueEquals (some a) (some b) = jsonValueEquals (some b) (some a) := by
  induction a using JValue.indOn with
  | hnull =>
    intro b hu1 hu2
    by_cases ht : jsonTypeOf (some JValue.null) = jsonTypeOf (some b)
    · cases b <;> simp [jsonTypeOf] at ht
      rfl
    · rw [equals_mismatch ht, equals_mismatch (fun hh => ht hh.symm)]
  | hbool b0 =>
    intro b hu1 hu2
    by_cases ht : jsonTypeOf (some (JValue.bool b0)) = jsonTypeOf (some b)
    · cases b <;> simp [jsonTypeOf] at ht
      rename_i b1
      rw [equals_bool_bool, equals_bool_bool]
      by_cases h : b0 = b1
      · rw [if_pos h, if_pos h.symm]
      · rw [if_neg h, if_neg (fun hh => h hh.symm)]
    · rw [equals_mismatch ht, equals_mismatch (fun hh => ht hh.symm)]
  | hnum x =>
    intro b hu1 hu2
    by_cases ht : jsonTypeOf (some (JValue.num x)) = jsonTypeOf (some b)
    · cases b <;> simp [jsonTypeOf] at ht
      rename_i y
      rw [equals_num_num, equals_num_num, fvEqEps_comm]
    · rw [equals_mismatch ht, equals_mismatch (fun hh => ht hh.symm)]
  | hstr s =>
    intro b hu1 hu2
    by_cases ht : jsonTypeOf (some (JValue.str s)) = jsonTypeOf (some b)
    · cases b <;> simp [jsonTypeOf] at ht
      rename_i s1
      rw [equals_str_str, equals_str_str]
      by_cases h : s = s1
      · rw [if_pos h, if_pos h.symm]
      · rw [if_neg h, if_neg (fun hh => h hh.symm)]
    · rw [equals_mismatch ht, equals_mismatch (fun hh => ht hh.symm)]
  | harr items hIH =>
    intro b ha hb
    by_cases ht : jsonTypeOf (some (JValue.arr items)) = jsonTypeOf (some b)
    · cases b <;> simp [jsonTypeOf] at ht
      rename_i ys
      rw [equals_arr_arr, equals_arr_arr]
      by_cases hlen : items.length = ys.length
      · rw [if_neg (by omega), if_neg (by omega)]
        refine equalsItems_symm items ys hlen (fun x hx y hy => ?_)
        exact hIH x hx y (uniqNamesItems_mem (by simpa [uniqNames] using ha) hx)
          (uniqNamesItems_mem (by simpa [uniqNames] using hb) hy)
      · rw [if_pos hlen, if_pos (fun hh => hlen hh.symm)]
    · rw [equals_mismatch ht, equals_mismatch (fun hh => ht hh.symm)]
  | hobj mems hIH =>
    intro b ha hb
    by_cases ht : jsonTypeOf (some (JValue.obj mems)) = jsonTypeOf (some b)
    · cases b <;> simp [jsonTypeOf] at ht
      rename_i bms
      rw [equals_obj_obj, equals_obj_obj]
      by_cases hlen : mems.length = bms.length
      · rw [if_neg (by omega), if_neg (by omega)]
        simp only [uniqNames, Bool.and_eq_true] at ha hb
        have hnda : (mems.map Prod.fst).Nodup := (namesDistinct_iff mems).mp ha.1
        have hndb : (bms.map Prod.fst).Nodup := (namesDistinct_iff bms).mp hb.1
        have hsymm : ∀ k v w, jsonObjectGetValueL mems k = some v →
            jsonObjectGetValueL bms k = some w →
            jsonValueEquals (some v) (some w) = jsonValueEquals (some w) (some v) := by
          intro k v w hv hw
          exact hIH (k, v) (getL_mem hv) w (uniqNamesMems_mem ha.2 (getL_mem hv))
            (uniqNamesMems_mem hb.2 (getL_mem hw))
        have hflip1 := equalsMems_flip mems bms hlen hnda hndb hsymm
        have hflip2 := equalsMems_flip bms mems hlen.symm hndb hnda
          (fun k v w hv hw => (hsymm k w v hw hv).symm)
        rcases equalsMems_range mems mems bms with h0 | h1
        · rcases equalsMems_range bms bms mems with g0 | g1
          · rw [h0, g0]
          · have hc := hflip2 g1
            omega
        · rw [h1, hflip1 h1]
      · rw [if_pos hlen, if_pos (fun hh => hlen hh.symm)]
    · rw [equals_mismatch ht, equals_mismatch (fun hh => ht hh.symm)]

/-- The claim C8 as written is false: the epsilon comparison is not
transitive — 0 equals 6e-7 and 6e-7 equals 12e-7, but 0 does not equal
12e-7 (their difference is at least 1e-6). -/
theorem claim_C8_counterexample :
    jsonValueEquals (some (.num (.fin 0))) (some (.num (.fin (3 / 5000000)))) = 1 ∧
    jsonValueEquals (some (.num (.fin (3 / 5000000)))) (some (.num (.fin (3 / 2500000)))) = 1 ∧
    jsonValueEquals (some (.num (.fin 0))) (some (.num (.fin (3 / 2500000)))) = 0 := by
  have e1 : fvEqEps (.fin 0) (.fin (3 / 5000000)) = true := by with_unfolding_all rfl
  have e2 : fvEqEps (.fin (3 / 5000000)) (.fin (3 / 2500000)) = true := by with_unfolding_all rfl
  have e3 : fvEqEps (.fin 0) (.fin (3 / 2500000)) = false := by with_unfolding_all rfl
  refine ⟨?_, ?_, ?_⟩
  · rw [equals_num_num, if_pos e1]
  · rw [equals_num_num, if_pos e2]
  · rw [equals_num_num, if_neg (by simp [e3])]

/-- The claim C8 amended: json_value_equals is reflexive on trees whose
Numbers are all finite, and symmetric on trees whose objects have
pairwise-distinct names (what the constructors and parser produce); it is
not an equivalence relation, because the numeric epsilon makes it
non-transitive. -/
theorem claim_C8_equals_props :
    (∀ v : JValue, allFinite v = true → jsonValueEquals (some v) (some v) = 1) ∧
    (∀ a b : JValue, uniqNames a = true → uniqNames b = true →
      jsonValueEquals (some a) (some b) = jsonValueEquals (some b) (some a)) :=
  ⟨equals_refl, fun a b ha hb => equals_symm a b ha hb⟩

/-- Witness for the amended C8 at concrete trees. -/
theorem claim_C8_witness :
    allFinite (JValue.arr [JValue.num (FV.fin 1), JValue.str ['a'], JValue.null]) = true ∧
    jsonValueEquals (some (JValue.arr [JValue.num (FV.fin 1), JValue.str ['a'], JValue.null]))
      (some (JValue.arr [JValue.num (FV.fin 1), JValue.str ['a'], JValue.null])) = 1 ∧
    uniqNames (JValue.obj [(['a'], JValue.null)]) = true ∧
    uniqNames (JValue.bool true) = true ∧
    jsonValueEquals (some (JValue.obj [(['a'], JValue.null)])) (some (JValue.bool true)) =
      jsonValueEquals (some (JValue.bool true)) (some (JValue.obj [(['a'], JValue.null)])) := by
  have h1 : allFinite (JValue.arr [JValue.num (FV.fin 1), JValue.str ['a'], JValue.null]) = true := by
    simp [allFinite, allFiniteItems, fvFinite]
  have h2 : uniqNames (JValue.obj [(['a'], JValue.null)]) = true := by
    simp [uniqNames, namesDistinct, uniqNamesMems]
  have h3 : uniqNames (JValue.bool true) = true := by simp [uniqNames]
  exact ⟨h1, claim_C8_equals_props.1 _ h1, h2, h3, claim_C8_equals_props.2 _ _ h2 h3⟩

/-! ## Round trip: byte-level utilities -/

theorem char_toNat_inj {a b : Char} (h : a.toNat = b.toNat) : a = b :=
  Char.ext (UInt32.ext h)

theorem char_ne_of_toNat {a b : Char} (h : a.toNat ≠ b.toNat) : a ≠ b :=
  fun he => h (he ▸ rfl)

theorem toNat_ofNat_lt (n : ℕ) (h : n < 55296) : (Char.ofNat n).toNat = n := by
  have hv : n.isValidChar := Or.inl h
  simp only [Char.ofNat, dif_pos hv, Char.ofNatAux, Char.toNat]
  simp [UInt32.toNat, BitVec.toNat_ofNatLt]

theorem skipWs_cons (c : Char) (t : List Char) (h : isspaceC c = false) :
    skipWs (c :: t) = c :: t := by
  simp [skipWs, List.dropWhile_cons, h]

theorem digitsVal_reverse (l : List ℕ) : digitsVal 10 l.reverse = Nat.ofDigits 10 l := by
  induction l with
  | nil => rfl
  | cons d t ih =>
    rw [List.reverse_cons, digitsVal, List.foldl_append]
    rw [digitsVal] at ih
    simp only [List.foldl_cons, List.foldl_nil, ih, Nat.ofDigits_cons]
    ring

theorem natToChars_length_pos (n : ℕ) : 0 < (natToChars n).length := by
  rw [natToChars]
  split
  · simp
  · simpa [List.length_pos] using Nat.digits_ne_nil_iff_ne_zero.mpr (by assumption)

theorem natToChars_shape (n : ℕ) :
    ∃ c t, natToChars n = c :: t ∧ 48 ≤ c.toNat ∧ c.toNat ≤ 57 ∧ (n ≠ 0 → c.toNat ≠ 48) := by
  by_cases h : n = 0
  · subst h
    exact ⟨'0', [], rfl, by decide, by decide, fun h => absurd rfl h⟩
  · have hnil : natToChars n ≠ [] := by
      have := natToChars_length_pos n
      exact List.ne_nil_of_length_pos this
    obtain ⟨c, t, hct⟩ := List.exists_cons_of_ne_nil hnil
    have hdig : (Nat.digits 10 n) ≠ [] := Nat.digits_ne_nil_iff_ne_zero.mpr h
    have hlast := Nat.getLast_digit_ne_zero 10 h
    have hmem : (Nat.digits 10 n).getLast hdig ∈ Nat.digits 10 n := List.getLast_mem hdig
    have hlt : (Nat.digits 10 n).getLast hdig < 10 := Nat.digits_lt_base (by norm_num) hmem
    have hhead : (natToChars n).head? = some (Char.ofNat (48 + (Nat.digits 10 n).getLast hdig)) := by
      rw [natToChars, if_neg h, List.head?_map, List.head?_reverse,
        List.getLast?_eq_getLast _ hdig]
      rfl
    rw [hct] at hhead
    simp only [List.head?_cons, Option.some.injEq] at hhead
    refine ⟨c, t, hct, ?_, ?_, ?_⟩ <;>
      rw [hhead, toNat_ofNat_lt _ (by omega)] <;> omega

theorem natToChars_mem (n : ℕ) : ∀ c ∈ natToChars n, 48 ≤ c.toNat ∧ c.toNat ≤ 57 := by
  intro c hc
  rw [natToChars] at hc
  split at hc
  · simp only [List.mem_singleton] at hc
    subst hc
    decide
  · simp only [List.mem_map, List.mem_reverse] at hc
    obtain ⟨d, hd, rfl⟩ := hc
    have hlt : d < 10 := Nat.digits_lt_base (by norm_num) hd
    rw [toNat_ofNat_lt _ (by omega)]
    omega

theorem natToChars_val (n : ℕ) :
    digitsVal 10 ((natToChars n).map fun c => c.toNat - 48) = n := by
  rw [natToChars]
  split
  · subst n
    rfl
  · rw [List.map_map]
    have hmap : (Nat.digits 10 n).reverse.map
        ((fun c => c.toNat - 48) ∘ fun d => Char.ofNat (48 + d)) = (Nat.digits 10 n).reverse := by
      have : ∀ d ∈ (Nat.digits 10 n).reverse,
          ((fun c => c.toNat - 48) ∘ fun d => Char.ofNat (48 + d)) d = id d := by
        intro d hd
        have hlt : d < 10 := Nat.digits_lt_base (by norm_num) (List.mem_reverse.mp hd)
        simp [toNat_ofNat_lt (48 + d) (by omega)]
      rw [List.map_congr_left this, List.map_id]
    rw [hmap, digitsVal_reverse]
    exact Nat.ofDigits_digits 10 n

/-! ## Round trip: number reparsing -/

theorem stopRest_not_digit (rest : List Char) (h : stopRest rest) :
    rest = [] ∨ ∃ c r, rest = c :: r ∧ (c.toNat < 48 ∨ 57 < c.toNat) := by
  rcases h with rfl | ⟨c, r, rfl, hc⟩
  · exact Or.inl rfl
  · refine Or.inr ⟨c, r, rfl, ?_⟩
    rcases hc with rfl | rfl | rfl <;> simp [rcub, toNat_ofNat_lt]

theorem digitRun_append (dl rest : List Char)
    (h : ∀ c ∈ dl, 48 ≤ c.toNat ∧ c.toNat ≤ 57)
    (hrest : rest = [] ∨ ∃ c r, rest = c :: r ∧ (c.toNat < 48 ∨ 57 < c.toNat)) :
    digitRun (dl ++ rest) = (dl.map fun c => c.toNat - 48, rest) := by
  induction dl with
  | nil =>
    rcases hrest with rfl | ⟨c, r, rfl, hc⟩
    · rfl
    · rw [List.nil_append, digitRun, if_neg]
      · simp
      · simp only [isdigitC, decide_eq_true_eq]
        omega
  | cons c cs ih =>
    have hc := h c (by simp)
    have ih2 := ih (fun x hx => h x (by simp [hx]))
    rw [List.cons_append, digitRun, if_pos (by simp only [isdigitC, decide_eq_true_eq]; omega)]
    simp [ih2]

theorem expPart_stop (em em2 : Char) (base : ℕ) (m : ℚ) (rest : List Char)
    (h : rest = [] ∨ ∃ c r, rest = c :: r ∧ c ≠ em ∧ c ≠ em2) :
    expPart em em2 base m rest = (m, rest) := by
  rcases h with rfl | ⟨c, r, rfl, h1, h2⟩
  · rfl
  · have hne : ¬(c = em ∨ c = em2) := fun h => h.elim h1 h2
    simp only [expPart.eq_def]
    rw [if_neg hne]

theorem stopRest_not_exp (rest : List Char) (h : stopRest rest) :
    rest = [] ∨ ∃ c r, rest = c :: r ∧ c ≠ 'e' ∧ c ≠ 'E' := by
  rcases h with rfl | ⟨c, r, rfl, hc⟩
  · exact Or.inl rfl
  · refine Or.inr ⟨c, r, rfl, ?_, ?_⟩ <;> rcases hc with rfl | rfl | rfl <;>
      first
      | decide
      | exact char_ne_of_toNat (by simp [rcub, toNat_ofNat_lt])

theorem decimalFloat_int (n : ℕ) (rest : List Char) (hrest : stopRest rest) :
    decimalFloat (natToChars n ++ rest) = some (.fin n, rest) := by
  obtain ⟨c, t, hct, hc1, hc2, _⟩ := natToChars_shape n
  have hrun := digitRun_append (natToChars n) rest (natToChars_mem n)
    (stopRest_not_digit rest hrest)
  have hval : digitsVal 10 ((c.toNat - 48) :: t.map (fun c => c.toNat - 48)) = n := by
    have hv := natToChars_val n
    rw [hct, List.map_cons] at hv
    exact hv
  rw [decimalFloat, hrun, hct, List.map_cons]
  have hexp := expPart_stop 'e' 'E' 10 ((n : ℕ) : ℚ) rest (stopRest_not_exp rest hrest)
  rcases hrest with rfl | ⟨c0, r0, rfl, hc0⟩
  · simp only [hval, hexp]
  · have hdot : c0 ≠ '.' := by
      rcases hc0 with rfl | rfl | rfl <;>
        exact char_ne_of_toNat (by simp [rcub, toNat_ofNat_lt])
    simp only [hval]
    split
    · rename_i heq
      exact absurd (List.cons.injEq .. ▸ congrArg id heq) (by simp [hdot])
    · simp [hexp]

theorem digitsVal_replicate_zero (k : ℕ) (l : List ℕ) :
    digitsVal 10 (List.replicate k 0 ++ l) = digitsVal 10 l := by
  induction k with
  | zero => rfl
  | succ k ih =>
    simpa only [List.replicate_succ, List.cons_append, digitsVal, List.foldl_cons,
      Nat.zero_mul, Nat.add_zero] using ih

theorem natToChars_length_le6 (f : ℕ) (hf : f < 1000000) : (natToChars f).length ≤ 6 := by
  rw [natToChars]
  split
  · simp
  · rename_i hf0
    simp only [List.length_map, List.length_reverse]
    by_contra hlen
    push_neg at hlen
    have h1 : (10:ℕ) ^ 7 ≤ 10 ^ (Nat.digits 10 f).length :=
      Nat.pow_le_pow_right (by norm_num) hlen
    have h2 := Nat.base_pow_length_digits_le 10 f (by norm_num) hf0
    have h3 := le_trans h1 h2
    norm_num at h3
    omega

theorem fracChars_mem (f : ℕ) : ∀ c ∈ fracChars f, 48 ≤ c.toNat ∧ c.toNat ≤ 57 := by
  intro c hc
  rw [fracChars, List.mem_append] at hc
  rcases hc with hc | hc
  · rw [List.eq_of_mem_replicate hc]
    decide
  · exact natToChars_mem f c hc

theorem fracChars_val (f : ℕ) :
    digitsVal 10 ((fracChars f).map fun c => c.toNat - 48) = f := by
  rw [fracChars, List.map_append, List.map_replicate]
  have h0 : ('0' : Char).toNat - 48 = 0 := by decide
  rw [h0, digitsVal_replicate_zero, natToChars_val]

theorem fracChars_length (f : ℕ) (hf : f < 1000000) : (fracChars f).length = 6 := by
  rw [fracChars, List.length_append, List.length_replicate]
  have := natToChars_length_le6 f hf
  omega

theorem decimalFloat_frac (i f : ℕ) (hf : f < 1000000) (rest : List Char)
    (hrest : stopRest rest) :
    decimalFloat (natToChars i ++ '.' :: (fracChars f ++ rest)) =
      some (.fin ((i : ℚ) + (f : ℚ) / 1000000), rest) := by
  obtain ⟨c, t, hct, hc1, hc2, _⟩ := natToChars_shape i
  have hrun := digitRun_append (natToChars i) ('.' :: (fracChars f ++ rest))
    (natToChars_mem i) (Or.inr ⟨'.', fracChars f ++ rest, rfl, by decide⟩)
  have hrun2 := digitRun_append (fracChars f) rest (fracChars_mem f)
    (stopRest_not_digit rest hrest)
  have hvi : digitsVal 10 ((c.toNat - 48) :: t.map (fun c => c.toNat - 48)) = i := by
    have hv := natToChars_val i
    rw [hct, List.map_cons] at hv
    exact hv
  have hlen : ((fracChars f).map fun c => c.toNat - 48).length = 6 := by
    rw [List.length_map]
    exact fracChars_length f hf
  have hexp := expPart_stop 'e' 'E' 10
    ((i : ℚ) + ((f : ℕ) : ℚ) / 10 ^ (((fracChars f).map fun c => c.toNat - 48).length)) rest
    (stopRest_not_exp rest hrest)
  rw [decimalFloat, hrun, hct, List.map_cons]
  simp only [hrun2, hvi, fracChars_val]
  rw [hlen] at hexp
  rw [hlen]
  simp only [hexp]
  norm_num

theorem strtodMag_digit (c : Char) (tl : List Char) (h1 : 48 ≤ c.toNat) (h2 : c.toNat ≤ 57)
    (hx : ∀ x r, c :: tl = '0' :: x :: r → x.toNat ≠ 120 ∧ x.toNat ≠ 88) :
    strtodMag (c :: tl) = decimalFloat (c :: tl) := by
  have hi : ('i' : Char).toNat = 105 := rfl
  have hn : ('n' : Char).toNat = 110 := rfl
  have hlow : lowerC c = c := by
    rw [lowerC, if_neg]
    omega
  have hm1 : matchCI ['i', 'n', 'f', 'i', 'n', 'i', 't', 'y'] (c :: tl) = none := by
    simp only [matchCI, hlow]
    rw [if_neg (char_ne_of_toNat (by omega))]
  have hm2 : matchCI ['i', 'n', 'f'] (c :: tl) = none := by
    simp only [matchCI, hlow]
    rw [if_neg (char_ne_of_toNat (by omega))]
  have hm3 : matchCI ['n', 'a', 'n'] (c :: tl) = none := by
    simp only [matchCI, hlow]
    rw [if_neg (char_ne_of_toNat (by omega))]
  simp only [strtodMag, hm1, hm2, hm3]
  split
  · rename_i x r heq
    obtain ⟨hx1, hx2⟩ := hx x r heq
    rw [if_neg]
    rintro (rfl | rfl)
    · exact hx1 rfl
    · exact hx2 rfl
  · rfl

theorem strtod_mag_pos (c : Char) (tl rest : List Char) (v : FV)
    (h1 : 48 ≤ c.toNat) (h2 : c.toNat ≤ 57)
    (hmag : strtodMag (c :: tl) = some (v, rest)) :
    strtod (c :: tl) = (v, rest) := by
  have hw : skipWs (c :: tl) = c :: tl := skipWs_cons c tl (by
    simp only [isspaceC, decide_eq_false_iff_not]
    omega)
  rw [strtod.eq_def, hw]
  split
  · rename_i r heq
    injection heq with hh ht
    have := congrArg Char.toNat hh
    simp only [show ('-' : Char).toNat = 45 from rfl] at this
    omega
  · rename_i r heq
    injection heq with hh ht
    have := congrArg Char.toNat hh
    simp only [show ('+' : Char).toNat = 43 from rfl] at this
    omega
  · rw [hmag]

theorem strtod_mag_neg (s rest : List Char) (v : FV)
    (hmag : strtodMag s = some (v, rest)) :
    strtod ('-' :: s) = (fvNeg v, rest) := by
  have hw : skipWs ('-' :: s) = '-' :: s := skipWs_cons '-' s (by decide)
  rw [strtod.eq_def, hw]
  split
  · rename_i r heq
    injection heq with hh ht
    subst ht
    rw [hmag]
  · rename_i r heq
    injection heq with hh ht
    exact absurd hh (by decide)
  · rename_i g1 g2
    exact absurd rfl (g1 s)

theorem isDecimal_true (s : List Char)
    (hchars : ∀ c ∈ s, c.toNat = 45 ∨ c.toNat = 46 ∨ (48 ≤ c.toNat ∧ c.toNat ≤ 57))
    (h0 : ¬(1 < s.length ∧ s.getD 0 ' ' = '0' ∧ s.getD 1 ' ' ≠ '.'))
    (h1 : ¬(2 < s.length ∧ s.take 2 = ['-', '0'] ∧ s.getD 2 ' ' ≠ '.')) :
    isDecimal s = true := by
  rw [isDecimal, if_neg h0, if_neg h1]
  simp only [Bool.not_eq_true', List.any_eq_false, decide_eq_true_eq]
  intro c hc
  have hx : ('x' : Char).toNat = 120 := rfl
  have hX : ('X' : Char).toNat = 88 := rfl
  rintro (rfl | rfl) <;> rcases hchars _ hc with h | h | h <;> omega

theorem take_span (a b : List Char) : (a ++ b).take ((a ++ b).length - b.length) = a := by
  rw [List.length_append, Nat.add_sub_cancel]
  exact List.take_left a b

theorem stopChar_toNat {c : Char} (h : stopChar c) :
    c.toNat = 44 ∨ c.toNat = 93 ∨ c.toNat = 125 := by
  rcases h with rfl | rfl | rfl
  · exact Or.inl rfl
  · exact Or.inr (Or.inl rfl)
  · refine Or.inr (Or.inr ?_)
    rw [rcub, toNat_ofNat_lt 125 (by norm_num)]

theorem strtodMag_natToChars (n : ℕ) (rest : List Char) (hrest : stopRest rest) :
    strtodMag (natToChars n ++ rest) = some (.fin n, rest) := by
  obtain ⟨c, t, hct, hc1, hc2, h0⟩ := natToChars_shape n
  rw [hct, List.cons_append]
  rw [strtodMag_digit c (t ++ rest) hc1 hc2 ?hx]
  · rw [← List.cons_append, ← hct]
    exact decimalFloat_int n rest hrest
  case hx =>
    intro x r heq
    injection heq with hh ht
    by_cases hn : n = 0
    · subst hn
      have : c :: t = ['0'] := hct.symm
      injection this with _ h2
      subst h2
      rw [List.nil_append] at ht
      rcases hrest with rfl | ⟨c0, r0, hc0r, hc0⟩
      · exact absurd ht (by simp)
      · rw [hc0r] at ht
        injection ht with hx0
        rw [← hx0]
        have := stopChar_toNat hc0
        omega
    · have := congrArg Char.toNat hh
      rw [show ('0' : Char).toNat = 48 from rfl] at this
      exact absurd this (h0 hn)

theorem strtodMag_fixed (i f : ℕ) (hf : f < 1000000) (rest : List Char)
    (hrest : stopRest rest) :
    strtodMag (natToChars i ++ '.' :: (fracChars f ++ rest)) =
      some (.fin ((i : ℚ) + (f : ℚ) / 1000000), rest) := by
  obtain ⟨c, t, hct, hc1, hc2, h0⟩ := natToChars_shape i
  rw [hct, List.cons_append]
  rw [strtodMag_digit c (t ++ '.' :: (fracChars f ++ rest)) hc1 hc2 ?hx]
  · rw [← List.cons_append, ← hct]
    exact decimalFloat_frac i f hf rest hrest
  case hx =>
    intro x r heq
    injection heq with hh ht
    by_cases hn : i = 0
    · subst hn
      have : c :: t = ['0'] := hct.symm
      injection this with _ h2
      subst h2
      rw [List.nil_append] at ht
      injection ht with hx0
      rw [← hx0]
      decide
    · have := congrArg Char.toNat hh
      rw [show ('0' : Char).toNat = 48 from rfl] at this
      exact absurd this (h0 hn)

theorem round6_exact (q : ℚ) (hden : (q * 1000000).den = 1) :
    ((⌊|q| * 1000000 + 1 / 2⌋.toNat : ℕ) : ℚ) = |q| * 1000000 := by
  have habs : (|q| * 1000000).den = 1 := by
    rcases abs_cases q with ⟨hq, _⟩ | ⟨hq, _⟩
    · rw [hq]
      exact hden
    · rw [hq, neg_mul]
      rw [Rat.neg_den]
      exact hden
  have hz : (((|q| * 1000000).num : ℤ) : ℚ) = |q| * 1000000 := (Rat.den_eq_one_iff _).mp habs
  have hnn : (0 : ℤ) ≤ (|q| * 1000000).num := Rat.num_nonneg.mpr (by positivity)
  have hfl : ⌊|q| * 1000000 + 1 / 2⌋ = (|q| * 1000000).num := by
    rw [Int.floor_eq_iff]
    constructor
    · rw [hz]
      linarith
    · rw [hz]
      push_cast
      linarith
  rw [hfl]
  rw [← hz]
  norm_cast
  exact Int.toNat_of_nonneg hnn

theorem div_mod_val (N : ℕ) :
    ((N / 1000000 : ℕ) : ℚ) + ((N % 1000000 : ℕ) : ℚ) / 1000000 = (N : ℚ) / 1000000 := by
  have h2 : (N / 1000000) * 1000000 + N % 1000000 = N := by omega
  field_simp
  exact_mod_cast h2

theorem span_chars_nat (n : ℕ) : ∀ c ∈ natToChars n,
    c.toNat = 45 ∨ c.toNat = 46 ∨ (48 ≤ c.toNat ∧ c.toNat ≤ 57) :=
  fun c hc => Or.inr (Or.inr (natToChars_mem n c hc))

theorem span_chars_frac (i f : ℕ) : ∀ c ∈ natToChars i ++ '.' :: fracChars f,
    c.toNat = 45 ∨ c.toNat = 46 ∨ (48 ≤ c.toNat ∧ c.toNat ≤ 57) := by
  intro c hc
  rw [List.mem_append, List.mem_cons] at hc
  rcases hc with hc | rfl | hc
  · exact Or.inr (Or.inr (natToChars_mem i c hc))
  · exact Or.inr (Or.inl rfl)
  · exact Or.inr (Or.inr (fracChars_mem f c hc))

theorem span_chars_neg (a : List Char)
    (h : ∀ c ∈ a, c.toNat = 45 ∨ c.toNat = 46 ∨ (48 ≤ c.toNat ∧ c.toNat ≤ 57)) :
    ∀ c ∈ '-' :: a, c.toNat = 45 ∨ c.toNat = 46 ∨ (48 ≤ c.toNat ∧ c.toNat ≤ 57) := by
  intro c hc
  rw [List.mem_cons] at hc
  rcases hc with rfl | hc
  · exact Or.inl rfl
  · exact h c hc

theorem parseNumberValue_nat (n : ℕ) (rest : List Char) (hrest : stopRest rest) :
    parseNumberValue (natToChars n ++ rest) = some (.num (.fin n), rest) := by
  obtain ⟨c, t, hct, hc1, hc2, h0⟩ := natToChars_shape n
  have hmag := strtodMag_natToChars n rest hrest
  rw [hct, List.cons_append] at hmag
  have hst : strtod (natToChars n ++ rest) = (.fin n, rest) := by
    rw [hct, List.cons_append]
    exact strtod_mag_pos c (t ++ rest) rest (.fin n) hc1 hc2 hmag
  rw [parseNumberValue]
  simp only [hst, take_span]
  rw [isDecimal_true (natToChars n) (span_chars_nat n) ?h0 ?h1]
  · simp
  case h0 =>
    rintro ⟨hlen, hd0, hd1⟩
    by_cases hn : n = 0
    · subst hn
      rw [show natToChars 0 = ['0'] from rfl] at hlen
      simp at hlen
    · rw [hct, List.getD_cons_zero] at hd0
      have := congrArg Char.toNat hd0
      rw [show ('0' : Char).toNat = 48 from rfl] at this
      exact h0 hn this
  case h1 =>
    rintro ⟨hlen, htk, hd2⟩
    rw [hct] at htk
    rw [List.take_cons (show (0:ℕ) < 2 by norm_num)] at htk
    injection htk with hh ht
    have := congrArg Char.toNat hh
    rw [show ('-' : Char).toNat = 45 from rfl] at this
    omega

theorem parseNumberValue_negnat (n : ℕ) (hn : n ≠ 0) (rest : List Char)
    (hrest : stopRest rest) :
    parseNumberValue (('-' :: natToChars n) ++ rest) = some (.num (.fin (-(n : ℚ))), rest) := by
  obtain ⟨c, t, hct, hc1, hc2, h0⟩ := natToChars_shape n
  have hmag := strtodMag_natToChars n rest hrest
  have hst : strtod (('-' :: natToChars n) ++ rest) = (.fin (-(n : ℚ)), rest) := by
    rw [List.cons_append]
    rw [strtod_mag_neg (natToChars n ++ rest) rest (.fin n) hmag]
    rfl
  rw [parseNumberValue]
  simp only [hst, take_span]
  rw [isDecimal_true ('-' :: natToChars n) (span_chars_neg _ (span_chars_nat n)) ?h0 ?h1]
  · simp
  case h0 =>
    rintro ⟨hlen, hd0, hd1⟩
    rw [List.getD_cons_zero] at hd0
    exact absurd hd0 (by decide)
  case h1 =>
    rintro ⟨hlen, htk, hd2⟩
    rw [List.take_cons (show (0:ℕ) < 2 by norm_num), hct,
      List.take_cons (show (0:ℕ) < 2 - 1 by norm_num)] at htk
    injection htk with hh ht
    injection ht with hh2 ht2
    have := congrArg Char.toNat hh2
    rw [show ('0' : Char).toNat = 48 from rfl] at this
    exact h0 hn this

theorem parseNumberValue_frac (i f : ℕ) (hf : f < 1000000) (rest : List Char)
    (hrest : stopRest rest) :
    parseNumberValue ((natToChars i ++ '.' :: fracChars f) ++ rest) =
      some (.num (.fin ((i : ℚ) + (f : ℚ) / 1000000)), rest) := by
  obtain ⟨c, t, hct, hc1, hc2, h0⟩ := natToChars_shape i
  have hshape : (natToChars i ++ '.' :: fracChars f) ++ rest =
      natToChars i ++ '.' :: (fracChars f ++ rest) := by
    simp [List.append_assoc]
  have hmag := strtodMag_fixed i f hf rest hrest
  rw [hct, List.cons_append] at hmag
  have hst : strtod ((natToChars i ++ '.' :: fracChars f) ++ rest) =
      (.fin ((i : ℚ) + (f : ℚ) / 1000000), rest) := by
    rw [hshape, hct, List.cons_append]
    exact strtod_mag_pos c (t ++ '.' :: (fracChars f ++ rest)) rest _ hc1 hc2 hmag
  rw [parseNumberValue]
  simp only [hst, take_span]
  rw [isDecimal_true (natToChars i ++ '.' :: fracChars f) (span_chars_frac i f) ?h0 ?h1]
  · simp
  case h0 =>
    rintro ⟨hlen, hd0, hd1⟩
    by_cases hn : i = 0
    · subst hn
      rw [show natToChars 0 = ['0'] from rfl, List.cons_append, List.nil_append,
        List.getD_cons_succ, List.getD_cons_zero] at hd1
      exact hd1 rfl
    · rw [hct, List.cons_append, List.getD_cons_zero] at hd0
      have := congrArg Char.toNat hd0
      rw [show ('0' : Char).toNat = 48 from rfl] at this
      exact h0 hn this
  case h1 =>
    rintro ⟨hlen, htk, hd2⟩
    rw [hct, List.cons_append, List.take_cons (show (0:ℕ) < 2 by norm_num)] at htk
    injection htk with hh ht
    have := congrArg Char.toNat hh
    rw [show ('-' : Char).toNat = 45 from rfl] at this
    omega

theorem parseNumberValue_negfrac (i f : ℕ) (hf : f < 1000000) (rest : List Char)
    (hrest : stopRest rest) :
    parseNumberValue (('-' :: (natToChars i ++ '.' :: fracChars f)) ++ rest) =
      some (.num (.fin (-((i : ℚ) + (f : ℚ) / 1000000))), rest) := by
  obtain ⟨c, t, hct, hc1, hc2, h0⟩ := natToChars_shape i
  have hshape : (natToChars i ++ '.' :: fracChars f) ++ rest =
      natToChars i ++ '.' :: (fracChars f ++ rest) := by
    simp [List.append_assoc]
  have hmag := strtodMag_fixed i f hf rest hrest
  have hst : strtod (('-' :: (natToChars i ++ '.' :: fracChars f)) ++ rest) =
      (.fin (-((i : ℚ) + (f : ℚ) / 1000000)), rest) := by
    rw [List.cons_append, hshape]
    rw [strtod_mag_neg (natToChars i ++ '.' :: (fracChars f ++ rest)) rest _ hmag]
    rfl
  rw [parseNumberValue]
  simp only [hst, take_span]
  rw [isDecimal_true ('-' :: (natToChars i ++ '.' :: fracChars f))
    (span_chars_neg _ (span_chars_frac i f)) ?h0 ?h1]
  · simp
  case h0 =>
    rintro ⟨hlen, hd0, hd1⟩
    rw [List.getD_cons_zero] at hd0
    exact absurd hd0 (by decide)
  case h1 =>
    rintro ⟨hlen, htk, hd2⟩
    by_cases hn : i = 0
    · subst hn
      rw [show natToChars 0 = ['0'] from rfl, List.cons_append, List.nil_append,
        List.getD_cons_succ, List.getD_cons_succ, List.getD_cons_zero] at hd2
      exact hd2 rfl
    · rw [List.take_cons (show (0:ℕ) < 2 by norm_num), hct, List.cons_append,
        List.take_cons (show (0:ℕ) < 2 - 1 by norm_num)] at htk
      injection htk with hh ht
      injection ht with hh2 ht2
      have := congrArg Char.toNat hh2
      rw [show ('0' : Char).toNat = 48 from rfl] at this
      exact h0 hn this

theorem parseNumberValue_rt (v : FV) (hg : goodNum v = true) (rest : List Char)
    (hrest : stopRest rest) :
    parseNumberValue (numToChars v ++ rest) = some (.num v, rest) := by
  cases v with
  | nan => simp [goodNum] at hg
  | inf b => simp [goodNum] at hg
  | fin q =>
    have hden : (q * 1000000).den = 1 := by simpa [goodNum] using hg
    by_cases hint : q.den = 1 ∧ -(2 ^ 31) ≤ q.num ∧ q.num < 2 ^ 31
    · have hfi : fvInt32 (.fin q) = some q.num := by rw [fvInt32, if_pos hint]
      have hnum : numToChars (.fin q) = intToChars q.num := by simp only [numToChars, hfi]
      have hq1 : ((q.num : ℤ) : ℚ) = q := (Rat.den_eq_one_iff q).mp hint.1
      rw [hnum, intToChars]
      by_cases hi : q.num < 0
      · rw [if_pos hi]
        have hnz : q.num.natAbs ≠ 0 := by
          simp only [ne_eq, Int.natAbs_eq_zero]
          omega
        rw [parseNumberValue_negnat q.num.natAbs hnz rest hrest]
        have hcast : ((q.num.natAbs : ℕ) : ℚ) = -((q.num : ℤ) : ℚ) := by
          have h2 : ((q.num.natAbs : ℕ) : ℤ) = -q.num := by omega
          have h3 := congrArg (fun z : ℤ => (z : ℚ)) h2
          simp only [Int.cast_natCast, Int.cast_neg] at h3
          exact h3
        have hv : -((q.num.natAbs : ℕ) : ℚ) = q := by
          rw [hcast, neg_neg]
          exact hq1
        rw [hv]
      · rw [if_neg hi]
        rw [parseNumberValue_nat q.num.natAbs rest hrest]
        have hcast : ((q.num.natAbs : ℕ) : ℚ) = ((q.num : ℤ) : ℚ) := by
          have h2 : ((q.num.natAbs : ℕ) : ℤ) = q.num := by omega
          have h3 := congrArg (fun z : ℤ => (z : ℚ)) h2
          simp only [Int.cast_natCast] at h3
          exact h3
        have hv : ((q.num.natAbs : ℕ) : ℚ) = q := by
          rw [hcast]
          exact hq1
        rw [hv]
    · have hfi : fvInt32 (.fin q) = none := by rw [fvInt32, if_neg hint]
      have hnum : numToChars (.fin q) = fixed6 q := by simp only [numToChars, hfi]
      set N := ⌊|q| * 1000000 + 1 / 2⌋.toNat with hN
      have hNq : ((N : ℕ) : ℚ) = |q| * 1000000 := round6_exact q hden
      have hfe : fixed6 q = (if q < 0 then ['-'] else []) ++
          (natToChars (N / 1000000) ++ '.' :: fracChars (N % 1000000)) := by
        rw [fixed6, fracChars, hN]
      have hflt : N % 1000000 < 1000000 := Nat.mod_lt _ (by norm_num)
      have hval : ((N / 1000000 : ℕ) : ℚ) + ((N % 1000000 : ℕ) : ℚ) / 1000000 = |q| := by
        rw [div_mod_val, hNq]
        field_simp
      by_cases hqneg : q < 0
      · rw [hnum, hfe, if_pos hqneg, List.singleton_append]
        rw [parseNumberValue_negfrac (N / 1000000) (N % 1000000) hflt rest hrest]
        have hv : -(((N / 1000000 : ℕ) : ℚ) + ((N % 1000000 : ℕ) : ℚ) / 1000000) = q := by
          rw [hval, abs_of_neg hqneg]
          ring
        rw [hv]
      · rw [hnum, hfe, if_neg hqneg, List.nil_append]
        rw [parseNumberValue_frac (N / 1000000) (N % 1000000) hflt rest hrest]
        have hv : (((N / 1000000 : ℕ) : ℚ) + ((N % 1000000 : ℕ) : ℚ) / 1000000) = q := by
          rw [hval, abs_of_nonneg (not_lt.mp hqneg)]
        rw [hv]

/-! ## Round trip: string reparsing -/

theorem escapeChar_raw (c : Char)
    (h : ¬(c.toNat = 34 ∨ c.toNat = 92 ∨ c.toNat = 8 ∨ c.toNat = 12 ∨
      c.toNat = 10 ∨ c.toNat = 13 ∨ c.toNat = 9)) :
    escapeChar c = [c] := by
  push_neg at h
  obtain ⟨h1, h2, h3, h4, h5, h6, h7⟩ := h
  rw [escapeChar, if_neg h1, if_neg h2, if_neg h3, if_neg h4, if_neg h5, if_neg h6, if_neg h7]

theorem escapeChar_esc (c : Char)
    (h : c.toNat = 34 ∨ c.toNat = 92 ∨ c.toNat = 8 ∨ c.toNat = 12 ∨
      c.toNat = 10 ∨ c.toNat = 13 ∨ c.toNat = 9) :
    ∃ e, escapeChar c = ['\\', e] := by
  rcases h with h | h | h | h | h | h | h
  · exact ⟨'"', by rw [escapeChar, if_pos h]⟩
  · exact ⟨'\\', by rw [escapeChar, if_neg (by omega), if_pos h]⟩
  · exact ⟨'b', by rw [escapeChar, if_neg (by omega), if_neg (by omega), if_pos h]⟩
  · exact ⟨'f', by rw [escapeChar, if_neg (by omega), if_neg (by omega), if_neg (by omega),
      if_pos h]⟩
  · exact ⟨'n', by rw [escapeChar, if_neg (by omega), if_neg (by omega), if_neg (by omega),
      if_neg (by omega), if_pos h]⟩
  · exact ⟨'r', by rw [escapeChar, if_neg (by omega), if_neg (by omega), if_neg (by omega),
      if_neg (by omega), if_neg (by omega), if_pos h]⟩
  · exact ⟨'t', by rw [escapeChar, if_neg (by omega), if_neg (by omega), if_neg (by omega),
      if_neg (by omega), if_neg (by omega), if_neg (by omega), if_pos h]⟩

theorem skipQuotesAux_raw (c : Char) (r : List Char) (h1 : c.toNat ≠ 34)
    (h2 : c.toNat ≠ 92) :
    skipQuotesAux (c :: r) = (1 + (skipQuotesAux r).1, (skipQuotesAux r).2) := by
  rw [skipQuotesAux.eq_def]
  dsimp only
  rw [if_neg (by intro heq; rw [heq] at h1; exact h1 rfl),
    if_neg (by intro heq; rw [heq] at h2; exact h2 rfl)]

theorem skipQuotesAux_esc (e : Char) (r : List Char) :
    skipQuotesAux ('\\' :: e :: r) = (2 + (skipQuotesAux r).1, (skipQuotesAux r).2) := by
  rw [skipQuotesAux.eq_def]
  dsimp only
  rw [if_neg (by decide), if_pos rfl]

theorem skipQuotesAux_escape (s : List Char) (rest : List Char) :
    skipQuotesAux (escapeList s ++ '"' :: rest) = (parsonStrlen s + 1, rest) := by
  induction s with
  | nil =>
    rw [escapeList, List.nil_append, skipQuotesAux.eq_def]
    dsimp only
    rw [if_pos rfl]
    rfl
  | cons c cs ih =>
    by_cases hD : c.toNat = 34 ∨ c.toNat = 92 ∨ c.toNat = 8 ∨ c.toNat = 12 ∨
        c.toNat = 10 ∨ c.toNat = 13 ∨ c.toNat = 9
    · obtain ⟨e, he⟩ := escapeChar_esc c hD
      have hcount : escCount c = 2 := by rw [escCount, if_pos hD]
      rw [escapeList, he, parsonStrlen, hcount]
      simp only [List.cons_append, List.nil_append]
      rw [skipQuotesAux_esc, ih]
      simp only [Prod.mk.injEq, and_true]
      omega
    · have he : escapeChar c = [c] := escapeChar_raw c hD
      have hcount : escCount c = 1 := by rw [escCount, if_neg hD]
      push_neg at hD
      rw [escapeList, he, parsonStrlen, hcount]
      simp only [List.cons_append, List.nil_append]
      rw [skipQuotesAux_raw c _ hD.1 hD.2.1, ih]
      simp only [Prod.mk.injEq, and_true]
      omega

theorem processStringAux_escape (s : List Char) (hs : goodStr s = true) (extra : List Char) :
    ∀ fuel, parsonStrlen s + 1 ≤ fuel →
      processStringAux fuel (escapeList s ++ extra) (parsonStrlen s) = some s := by
  induction s with
  | nil =>
    intro fuel hf
    obtain ⟨f, rfl⟩ : ∃ f, fuel = f + 1 := ⟨fuel - 1, by omega⟩
    show processStringAux (f + 1) (escapeList [] ++ extra) 0 = some []
    cases hl : escapeList [] ++ extra <;> rfl
  | cons c cs ih =>
    intro fuel hf
    have hgc : goodChar c = true ∧ goodStr cs = true := by
      simpa [goodStr] using hs
    have hgood : (32 ≤ c.toNat ∧ c.toNat < 256) ∨ c.toNat = 8 ∨ c.toNat = 9 ∨
        c.toNat = 10 ∨ c.toNat = 12 ∨ c.toNat = 13 := by
      simpa [goodChar] using hgc.1
    by_cases hD : c.toNat = 34 ∨ c.toNat = 92 ∨ c.toNat = 8 ∨ c.toNat = 12 ∨
        c.toNat = 10 ∨ c.toNat = 13 ∨ c.toNat = 9
    · have hcount : escCount c = 2 := by rw [escCount, if_pos hD]
      have hlen : parsonStrlen (c :: cs) = parsonStrlen cs + 1 + 1 := by
        rw [parsonStrlen, hcount]
        omega
      rw [hlen] at hf ⊢
      obtain ⟨f, rfl⟩ : ∃ f, fuel = f + 1 := ⟨fuel - 1, by omega⟩
      have hrec := ih hgc.2 f (by omega)
      rcases hD with h | h | h | h | h | h | h
      · have hc : c = '"' := char_toNat_inj h
        subst hc
        rw [escapeList, show escapeChar '"' = ['\\', '"'] from rfl]
        simp only [List.cons_append, List.nil_append]
        rw [processStringAux.eq_def]
        dsimp only
        simp [hrec]
      · have hc : c = '\\' := char_toNat_inj h
        subst hc
        rw [escapeList, show escapeChar '\\' = ['\\', '\\'] from rfl]
        simp only [List.cons_append, List.nil_append]
        rw [processStringAux.eq_def]
        dsimp only
        simp [hrec]
      · have hc : c = Char.ofNat 8 := char_toNat_inj (by rw [h, toNat_ofNat_lt 8 (by norm_num)])
        subst hc
        rw [escapeList, show escapeChar (Char.ofNat 8) = ['\\', 'b'] from rfl]
        simp only [List.cons_append, List.nil_append]
        rw [processStringAux.eq_def]
        dsimp only
        simp [hrec]
      · have hc : c = Char.ofNat 12 := char_toNat_inj (by rw [h, toNat_ofNat_lt 12 (by norm_num)])
        subst hc
        rw [escapeList, show escapeChar (Char.ofNat 12) = ['\\', 'f'] from rfl]
        simp only [List.cons_append, List.nil_append]
        rw [processStringAux.eq_def]
        dsimp only
        simp [hrec]
      · have hc : c = Char.ofNat 10 := char_toNat_inj (by rw [h, toNat_ofNat_lt 10 (by norm_num)])
        subst hc
        rw [escapeList, show escapeChar (Char.ofNat 10) = ['\\', 'n'] from rfl]
        simp only [List.cons_append, List.nil_append]
        rw [processStringAux.eq_def]
        dsimp only
        simp [hrec]
      · have hc : c = Char.ofNat 13 := char_toNat_inj (by rw [h, toNat_ofNat_lt 13 (by norm_num)])
        subst hc
        rw [escapeList, show escapeChar (Char.ofNat 13) = ['\\', 'r'] from rfl]
        simp only [List.cons_append, List.nil_append]
        rw [processStringAux.eq_def]
        dsimp only
        simp [hrec]
      · have hc : c = Char.ofNat 9 := char_toNat_inj (by rw [h, toNat_ofNat_lt 9 (by norm_num)])
        subst hc
        rw [escapeList, show escapeChar (Char.ofNat 9) = ['\\', 't'] from rfl]
        simp only [List.cons_append, List.nil_append]
        rw [processStringAux.eq_def]
        dsimp only
        simp [hrec]
    · have he : escapeChar c = [c] := escapeChar_raw c hD
      have hcount : escCount c = 1 := by rw [escCount, if_neg hD]
      push_neg at hD
      have hge : 32 ≤ c.toNat := by
        rcases hgood with ⟨h32, _⟩ | h | h | h | h | h <;> omega
      have hlen : parsonStrlen (c :: cs) = parsonStrlen cs + 1 := by
        rw [parsonStrlen, hcount]
        omega
      rw [hlen] at hf ⊢
      obtain ⟨f, rfl⟩ : ∃ f, fuel = f + 1 := ⟨fuel - 1, by omega⟩
      have hrec := ih hgc.2 f (by omega)
      rw [escapeList, he]
      simp only [List.cons_append, List.nil_append]
      rw [processStringAux.eq_def]
      dsimp only
      rw [if_neg (by intro heq; rw [heq] at hD; exact hD.2.1 rfl)]
      rw [if_neg (by omega)]
      rw [hrec]
      rfl

theorem getQuotedString_rt (s : List Char) (hs : goodStr s = true) (rest : List Char)
    (hrest : rest ≠ []) :
    getQuotedString (serializeString s ++ rest) = (some s, rest) := by
  have hshape : serializeString s ++ rest = '"' :: (escapeList s ++ '"' :: rest) := by
    rw [serializeString]
    simp [List.append_assoc]
  rw [hshape, getQuotedString]
  simp only [skipQuotesAux_escape]
  obtain ⟨r0, rs, rfl⟩ := List.exists_cons_of_ne_nil hrest
  rw [if_neg (by simp)]
  rw [processString, Nat.add_sub_cancel,
    processStringAux_escape s hs ('"' :: r0 :: rs) (parsonStrlen s + 1) (by omega)]

theorem parseStringValue_rt (s : List Char) (hs : goodStr s = true) (rest : List Char)
    (hrest : rest ≠ []) :
    parseStringValue (serializeString s ++ rest) = some (.str s, rest) := by
  rw [parseStringValue, getQuotedString_rt s hs rest hrest]

/-! ## Round trip: keyword values, head bytes, fuel bounds -/

theorem parseNullValue_rt (rest : List Char) :
    parseNullValue (nullBytes ++ rest) = some (.null, rest) := by
  rw [parseNullValue,
    if_pos (show List.take 4 (nullBytes ++ rest) = ['n', 'u', 'l', 'l'] from rfl)]
  rfl

theorem parseBooleanValue_true (rest : List Char) :
    parseBooleanValue (trueBytes ++ rest) = some (.bool true, rest) := by
  rw [parseBooleanValue,
    if_pos (show List.take 4 (trueBytes ++ rest) = ['t', 'r', 'u', 'e'] from rfl)]
  rfl

theorem parseBooleanValue_false (rest : List Char) :
    parseBooleanValue (falseBytes ++ rest) = some (.bool false, rest) := by
  rw [parseBooleanValue,
    if_neg (show ¬(List.take 4 (falseBytes ++ rest) = ['t', 'r', 'u', 'e']) from
      fun h => absurd (show (['f', 'a', 'l', 's'] : List Char) = ['t', 'r', 'u', 'e'] from h)
        (by decide)),
    if_pos (show List.take 5 (falseBytes ++ rest) = ['f', 'a', 'l', 's', 'e'] from rfl)]
  rfl

theorem numToChars_shape (v : FV) : ∃ c t, numToChars v = c :: t ∧
    (c.toNat = 45 ∨ (48 ≤ c.toNat ∧ c.toNat ≤ 57) ∨ c.toNat = 105 ∨ c.toNat = 110) := by
  cases v with
  | nan => exact ⟨'n', ['a', 'n'], rfl, Or.inr (Or.inr (Or.inr rfl))⟩
  | inf b =>
    cases b
    · exact ⟨'i', ['n', 'f'], rfl, Or.inr (Or.inr (Or.inl rfl))⟩
    · exact ⟨'-', ['i', 'n', 'f'], rfl, Or.inl rfl⟩
  | fin q =>
    cases hfi : fvInt32 (.fin q) with
    | some i =>
      simp only [numToChars, hfi]
      rw [intToChars]
      by_cases hi : i < 0
      · rw [if_pos hi]
        exact ⟨'-', natToChars i.natAbs, rfl, Or.inl rfl⟩
      · rw [if_neg hi]
        obtain ⟨c, t, hct, hc1, hc2, _⟩ := natToChars_shape i.natAbs
        exact ⟨c, t, hct, Or.inr (Or.inl ⟨hc1, hc2⟩)⟩
    | none =>
      simp only [numToChars, hfi]
      rw [fixed6]
      by_cases hq : q < 0
      · rw [if_pos hq]
        exact ⟨'-', _, rfl, Or.inl rfl⟩
      · rw [if_neg hq, List.nil_append]
        obtain ⟨c, t, hct, hc1, hc2, _⟩ :=
          natToChars_shape (⌊|q| * 1000000 + 1 / 2⌋.toNat / 1000000)
        rw [hct, List.cons_append]
        exact ⟨c, _, rfl, Or.inr (Or.inl ⟨hc1, hc2⟩)⟩

theorem startOK (c : Char)
    (h : c.toNat = 34 ∨ c.toNat = 45 ∨ (48 ≤ c.toNat ∧ c.toNat ≤ 57) ∨ c.toNat = 91 ∨
      c.toNat = 102 ∨ c.toNat = 105 ∨ c.toNat = 110 ∨ c.toNat = 116 ∨ c.toNat = 123) :
    isspaceC c = false ∧ c ≠ ']' ∧ c ≠ rcub ∧ c ≠ ',' := by
  have h93 : (']' : Char).toNat = 93 := rfl
  have h44 : (',' : Char).toNat = 44 := rfl
  have h125 : rcub.toNat = 125 := by rw [rcub, toNat_ofNat_lt 125 (by norm_num)]
  refine ⟨?_, ?_, ?_, ?_⟩
  · simp only [isspaceC, decide_eq_false_iff_not]
    omega
  · intro heq
    rw [heq, h93] at h
    omega
  · intro heq
    rw [heq, h125] at h
    omega
  · intro heq
    rw [heq, h44] at h
    omega

theorem serializeValue_shape (v : JValue) : ∃ c t, serializeValue v = c :: t ∧
    isspaceC c = false ∧ c ≠ ']' ∧ c ≠ rcub ∧ c ≠ ',' := by
  cases v with
  | null =>
    refine ⟨'n', ['u', 'l', 'l'], ?_, startOK 'n' (by decide)⟩
    simp [serializeValue, nullBytes]
  | bool b =>
    cases b
    · refine ⟨'f', ['a', 'l', 's', 'e'], ?_, startOK 'f' (by decide)⟩
      simp [serializeValue, falseBytes]
    · refine ⟨'t', ['r', 'u', 'e'], ?_, startOK 't' (by decide)⟩
      simp [serializeValue, trueBytes]
  | num f =>
    obtain ⟨c, t, hct, hc⟩ := numToChars_shape f
    refine ⟨c, t, ?_, startOK c ?_⟩
    · simp [serializeValue, hct]
    · rcases hc with h | h | h | h
      · exact Or.inr (Or.inl h)
      · exact Or.inr (Or.inr (Or.inl h))
      · exact Or.inr (Or.inr (Or.inr (Or.inr (Or.inr (Or.inl h)))))
      · exact Or.inr (Or.inr (Or.inr (Or.inr (Or.inr (Or.inr (Or.inl h))))))
  | str s =>
    refine ⟨'"', escapeList s ++ ['"'], ?_, startOK '"' (by decide)⟩
    simp [serializeValue, serializeString]
  | arr items =>
    refine ⟨'[', serializeItems items ++ [']'], ?_, startOK '[' (by decide)⟩
    simp [serializeValue]
  | obj mems =>
    refine ⟨lcub, serializeMems mems ++ [rcub], ?_, startOK lcub ?_⟩
    · simp [serializeValue]
    · have : lcub.toNat = 123 := by rw [lcub, toNat_ofNat_lt 123 (by norm_num)]
      omega

theorem serializeValue_length_pos (v : JValue) : 0 < (serializeValue v).length := by
  obtain ⟨c, t, hct, -⟩ := serializeValue_shape v
  rw [hct]
  simp

theorem fuelItems_le (items : List JValue)
    (h : ∀ x ∈ items, fuelV x ≤ 3 * (serializeValue x).length) :
    fuelItems items ≤ 1 + 3 * (serializeItems items).length := by
  induction items with
  | nil => simp [fuelItems]
  | cons x t ih =>
    cases t with
    | nil =>
      have hx := h x (by simp)
      simp only [fuelItems, serializeItems]
      omega
    | cons y t2 =>
      have hx := h x (by simp)
      have ih2 := ih (fun z hz => h z (by simp [hz]))
      simp only [fuelItems, serializeItems, List.length_append, List.length_cons] at *
      omega

theorem fuelMems_le (mems : List (List Char × JValue))
    (h : ∀ p ∈ mems, fuelV p.2 ≤ 3 * (serializeValue p.2).length) :
    fuelMems mems ≤ 1 + 3 * (serializeMems mems).length := by
  induction mems with
  | nil => simp [fuelMems]
  | cons p t ih =>
    obtain ⟨k, v⟩ := p
    cases t with
    | nil =>
      have hx := h (k, v) (by simp)
      simp only [fuelMems, serializeMems, List.length_append, List.length_cons] at *
      omega
    | cons m t2 =>
      have hx := h (k, v) (by simp)
      have ih2 := ih (fun z hz => h z (by simp [hz]))
      simp only [fuelMems, serializeMems, List.length_append, List.length_cons] at *
      omega

theorem fuelV_le (v : JValue) : fuelV v ≤ 3 * (serializeValue v).length := by
  induction v using JValue.indOn with
  | hnull =>
    have := serializeValue_length_pos .null
    simp only [fuelV]
    omega
  | hbool b =>
    have := serializeValue_length_pos (.bool b)
    simp only [fuelV]
    omega
  | hnum f =>
    have := serializeValue_length_pos (.num f)
    simp only [fuelV]
    omega
  | hstr s =>
    have := serializeValue_length_pos (.str s)
    simp only [fuelV]
    omega
  | harr items h =>
    have h2 := fuelItems_le items h
    simp only [fuelV, serializeValue, List.length_cons, List.length_append] at *
    omega
  | hobj mems h =>
    have h2 := fuelMems_le mems h
    simp only [fuelV, serializeValue, List.length_cons, List.length_append] at *
    omega

/-! ## Round trip: the container loops -/

theorem arrFinish_rt (acc : List JValue) (rest : List Char) :
    arrFinish acc (']' :: rest) = some (.arr acc, rest) := by
  rw [arrFinish, skipWs_cons ']' rest (by decide)]
  dsimp only
  rw [if_pos rfl]

theorem objFinish_rt (acc : List (List Char × JValue)) (rest : List Char) :
    objFinish acc (rcub :: rest) = some (.obj acc, rest) := by
  rw [objFinish, skipWs_cons rcub rest (by decide)]
  dsimp only
  rw [if_pos rfl]

theorem serializeItems_shape (x : JValue) (t : List JValue) :
    ∃ c X, serializeItems (x :: t) = c :: X ∧ isspaceC c = false ∧ c ≠ ']' ∧ c ≠ rcub ∧
      c ≠ ',' := by
  obtain ⟨c, t0, hct, hp1, hp2, hp3, hp4⟩ := serializeValue_shape x
  cases t with
  | nil =>
    refine ⟨c, t0, ?_, hp1, hp2, hp3, hp4⟩
    simp [serializeItems, hct]
  | cons y t2 =>
    refine ⟨c, t0 ++ ',' :: serializeItems (y :: t2), ?_, hp1, hp2, hp3, hp4⟩
    simp [serializeItems, hct]

theorem arrLoop_rt (e : ℕ) (rest : List Char)
    (pending : List JValue)
    (helem : ∀ x ∈ pending, ∀ rest2 fuel2, goodVal e x = true →
      ((∃ c r, rest2 = c :: r ∧ stopChar c) ∨ (rest2 = [] ∧ isCont x = true)) →
      fuelV x ≤ fuel2 → parseStep fuel2 (.val e) (serializeValue x ++ rest2) = some (x, rest2)) :
    ∀ (acc : List JValue) (fuel : ℕ),
      pending ≠ [] →
      acc.length + pending.length ≤ 122880 →
      goodItems e pending = true →
      fuelItems pending ≤ fuel →
      parseStep fuel (.arrLoop e acc) (serializeItems pending ++ ']' :: rest) =
        some (.arr (acc ++ pending), rest) := by
  induction pending with
  | nil =>
    intro acc fuel hne
    exact absurd rfl hne
  | cons x t ih =>
    intro acc fuel hne hcap hgood hfuel
    have hgx : goodVal e x = true ∧ goodItems e t = true := by
      simpa [goodItems] using hgood
    have hfuel2 : 1 + max (fuelV x) (fuelItems t) ≤ fuel := by
      have h := hfuel
      simp only [fuelItems] at h
      omega
    obtain ⟨f, rfl⟩ : ∃ f, fuel = f + 1 := ⟨fuel - 1, by omega⟩
    have hfx : fuelV x ≤ f := by omega
    have hft : fuelItems t ≤ f := by omega
    have hadd : jsonArrayAdd acc x = some (acc ++ [x]) := by
      rw [jsonArrayAdd, if_neg (by simp only [List.length_cons] at hcap; omega)]
    rw [parseStep.eq_def]
    dsimp only
    cases t with
    | nil =>
      have hx := helem x (by simp) (']' :: rest) f hgx.1
        (Or.inl ⟨']', rest, rfl, Or.inr (Or.inl rfl)⟩) hfx
      rw [show serializeItems [x] ++ ']' :: rest = serializeValue x ++ ']' :: rest by
        simp [serializeItems]]
      rw [hx]
      dsimp only
      rw [hadd]
      dsimp only
      rw [skipWs_cons ']' rest (by decide)]
      split
      · rename_i s3 heq
        injection heq with hh ht
        exact absurd hh (by decide)
      · exact arrFinish_rt (acc ++ [x]) rest
    | cons y t2 =>
      have hx := helem x (by simp) (',' :: (serializeItems (y :: t2) ++ ']' :: rest)) f hgx.1
        (Or.inl ⟨',', serializeItems (y :: t2) ++ ']' :: rest, rfl, Or.inl rfl⟩) hfx
      rw [show serializeItems (x :: y :: t2) ++ ']' :: rest =
          serializeValue x ++ (',' :: (serializeItems (y :: t2) ++ ']' :: rest)) by
        simp [serializeItems]]
      rw [hx]
      dsimp only
      rw [hadd]
      dsimp only
      rw [skipWs_cons ',' (serializeItems (y :: t2) ++ ']' :: rest) (by decide)]
      split
      · rename_i s3 heq
        injection heq with hh ht
        subst ht
        have hws : skipWs (serializeItems (y :: t2) ++ ']' :: rest) =
            serializeItems (y :: t2) ++ ']' :: rest := by
          obtain ⟨c0, X0, hcX, hns, -, -, -⟩ := serializeItems_shape y t2
          rw [hcX, List.cons_append]
          exact skipWs_cons _ _ hns
        rw [hws]
        have hrec := ih (fun z hz rest2 fuel2 => helem z (by simp [hz]) rest2 fuel2)
          (acc ++ [x]) f (by simp)
          (by simp only [List.length_append, List.length_cons, List.length_nil] at hcap ⊢; omega)
          hgx.2 hft
        rw [hrec]
        simp
      · rename_i g1 g2
        exact absurd rfl (g2 (serializeItems (y :: t2) ++ ']' :: rest))

theorem getL_none_of_distinct (acc t : List (List Char × JValue)) (k : List Char) (v : JValue)
    (h : namesDistinct (acc ++ (k, v) :: t) = true) : jsonObjectGetValueL acc k = none := by
  induction acc with
  | nil => rfl
  | cons p acc2 ih =>
    obtain ⟨k0, v0⟩ := p
    rw [List.cons_append] at h
    simp only [namesDistinct, Bool.and_eq_true, Bool.not_eq_true', List.any_eq_false,
      decide_eq_true_eq] at h
    rw [jsonObjectGetValueL, if_neg (fun heq => h.1 (k, v) (by simp) heq.symm)]
    exact ih h.2

theorem serializeMems_head (k2 : List Char) (v2 : JValue)
    (t2 : List (List Char × JValue)) :
    ∃ X, serializeMems ((k2, v2) :: t2) = '"' :: X := by
  cases t2 with
  | nil =>
    refine ⟨escapeList k2 ++ '"' :: ':' :: serializeValue v2, ?_⟩
    simp [serializeMems, serializeString]
  | cons m t3 =>
    refine ⟨escapeList k2 ++ '"' :: ':' :: (serializeValue v2 ++ ',' :: serializeMems (m :: t3)),
      ?_⟩
    simp [serializeMems, serializeString]

theorem objLoop_rt (e : ℕ) (rest : List Char)
    (pending : List (List Char × JValue))
    (helem : ∀ p ∈ pending, ∀ rest2 fuel2, goodVal e p.2 = true →
      ((∃ c r, rest2 = c :: r ∧ stopChar c) ∨ (rest2 = [] ∧ isCont p.2 = true)) →
      fuelV p.2 ≤ fuel2 →
      parseStep fuel2 (.val e) (serializeValue p.2 ++ rest2) = some (p.2, rest2)) :
    ∀ (acc : List (List Char × JValue)) (fuel : ℕ),
      pending ≠ [] →
      acc.length + pending.length ≤ 960 →
      goodMems e pending = true →
      namesDistinct (acc ++ pending) = true →
      fuelMems pending ≤ fuel →
      parseStep fuel (.objLoop e acc) (serializeMems pending ++ rcub :: rest) =
        some (.obj (acc ++ pending), rest) := by
  induction pending with
  | nil =>
    intro acc fuel hne
    exact absurd rfl hne
  | cons p t ih =>
    obtain ⟨k, v⟩ := p
    intro acc fuel hne hcap hgood hdist hfuel
    have hgm : goodStr k = true ∧ goodVal e v = true ∧ goodMems e t = true := by
      simpa [goodMems, and_assoc] using hgood
    have hfuel2 : 1 + max (fuelV v) (fuelMems t) ≤ fuel := by
      have h := hfuel
      simp only [fuelMems] at h
      omega
    obtain ⟨f, rfl⟩ : ∃ f, fuel = f + 1 := ⟨fuel - 1, by omega⟩
    have hfv : fuelV v ≤ f := by omega
    have hft : fuelMems t ≤ f := by omega
    have hgetl : jsonObjectGetValueL acc k = none := getL_none_of_distinct acc t k v hdist
    have hadd : jsonObjectAdd acc k v = some (acc ++ [(k, v)]) := by
      rw [jsonObjectAdd, if_neg (by simp only [List.length_cons] at hcap; omega), hgetl,
        if_neg (by simp)]
    rw [parseStep.eq_def]
    dsimp only
    cases t with
    | nil =>
      rw [show serializeMems [(k, v)] ++ rcub :: rest =
          serializeString k ++ (':' :: (serializeValue v ++ rcub :: rest)) by
        simp [serializeMems]]
      rw [getQuotedString_rt k hgm.1 _ (by simp)]
      dsimp only
      rw [skipWs_cons ':' _ (by decide)]
      split
      · rename_i s3 heq
        injection heq with hh ht
        subst ht
        have hx := helem (k, v) (by simp) (rcub :: rest) f hgm.2.1
          (Or.inl ⟨rcub, rest, rfl, Or.inr (Or.inr rfl)⟩) hfv
        rw [hx]
        dsimp only
        rw [hadd]
        dsimp only
        rw [skipWs_cons rcub rest (by decide)]
        split
        · rename_i s6 heq2
          injection heq2 with hh2 ht2
          exact absurd hh2.symm (by decide)
        · exact objFinish_rt (acc ++ [(k, v)]) rest
      · rename_i g1
        exact absurd rfl (g1 (serializeValue v ++ rcub :: rest))
    | cons m t2 =>
      rw [show serializeMems ((k, v) :: m :: t2) ++ rcub :: rest =
          serializeString k ++ (':' :: (serializeValue v ++
            (',' :: (serializeMems (m :: t2) ++ rcub :: rest)))) by
        simp [serializeMems]]
      rw [getQuotedString_rt k hgm.1 _ (by simp)]
      dsimp only
      rw [skipWs_cons ':' _ (by decide)]
      split
      · rename_i s3 heq
        injection heq with hh ht
        subst ht
        have hx := helem (k, v) (by simp)
          (',' :: (serializeMems (m :: t2) ++ rcub :: rest)) f hgm.2.1
          (Or.inl ⟨',', serializeMems (m :: t2) ++ rcub :: rest, rfl, Or.inl rfl⟩) hfv
        rw [hx]
        dsimp only
        rw [hadd]
        dsimp only
        rw [skipWs_cons ',' (serializeMems (m :: t2) ++ rcub :: rest) (by decide)]
        split
        · rename_i s6 heq2
          injection heq2 with hh2 ht2
          subst ht2
          have hws : skipWs (serializeMems (m :: t2) ++ rcub :: rest) =
              serializeMems (m :: t2) ++ rcub :: rest := by
            obtain ⟨X, hX⟩ := serializeMems_head m.1 m.2 t2
            rw [show (m.1, m.2) = m from rfl] at hX
            rw [hX, List.cons_append]
            exact skipWs_cons _ _ (by decide)
          rw [hws]
          have hrec := ih (fun z hz rest2 fuel2 => helem z (by simp [hz]) rest2 fuel2)
            (acc ++ [(k, v)]) f (by simp)
            (by simp only [List.length_append, List.length_cons, List.length_nil]
                  at hcap ⊢
                omega)
            hgm.2.2
            (by rw [show (acc ++ [(k, v)]) ++ m :: t2 = acc ++ (k, v) :: m :: t2 by simp]
                exact hdist)
            hft
          rw [hrec]
          simp
        · rename_i g1 g2
          exact absurd rfl (g2 (serializeMems (m :: t2) ++ rcub :: rest))
      · rename_i g1
        exact absurd rfl
          (g1 (serializeValue v ++ (',' :: (serializeMems (m :: t2) ++ rcub :: rest))))

theorem numToChars_shape_fin (q : ℚ) : ∃ c t, numToChars (.fin q) = c :: t ∧
    (c.toNat = 45 ∨ (48 ≤ c.toNat ∧ c.toNat ≤ 57)) := by
  cases hfi : fvInt32 (.fin q) with
  | some i =>
    simp only [numToChars, hfi]
    rw [intToChars]
    by_cases hi : i < 0
    · rw [if_pos hi]
      exact ⟨'-', natToChars i.natAbs, rfl, Or.inl rfl⟩
    · rw [if_neg hi]
      obtain ⟨c, t, hct, hc1, hc2, _⟩ := natToChars_shape i.natAbs
      exact ⟨c, t, hct, Or.inr ⟨hc1, hc2⟩⟩
  | none =>
    simp only [numToChars, hfi]
    rw [fixed6]
    by_cases hq : q < 0
    · rw [if_pos hq]
      exact ⟨'-', _, rfl, Or.inl rfl⟩
    · rw [if_neg hq, List.nil_append]
      obtain ⟨c, t, hct, hc1, hc2, _⟩ :=
        natToChars_shape (⌊|q| * 1000000 + 1 / 2⌋.toNat / 1000000)
      rw [hct, List.cons_append]
      exact ⟨c, _, rfl, Or.inr ⟨hc1, hc2⟩⟩

theorem parseStep_serialize (v : JValue) :
    ∀ (d : ℕ) (rest : List Char) (fuel : ℕ), goodVal d v = true →
      ((∃ c r, rest = c :: r ∧ stopChar c) ∨ (rest = [] ∧ isCont v = true)) →
      fuelV v ≤ fuel →
      parseStep fuel (.val d) (serializeValue v ++ rest) = some (v, rest) := by
  induction v using JValue.indOn with
  | hnull =>
    intro d rest fuel hg hrest hfuel
    simp only [goodVal, decide_eq_true_eq] at hg
    simp only [fuelV] at hfuel
    obtain ⟨f, rfl⟩ : ∃ f, fuel = f + 1 := ⟨fuel - 1, by omega⟩
    rw [show serializeValue .null ++ rest = 'n' :: (['u', 'l', 'l'] ++ rest) by
      simp [serializeValue, nullBytes]]
    rw [parseStep.eq_def]
    dsimp only
    rw [if_neg (by omega)]
    rw [skipWs_cons 'n' _ (by decide)]
    dsimp only
    rw [if_neg (by decide), if_neg (by decide), if_neg (by decide), if_neg (by decide),
      if_neg (by decide), if_pos rfl]
    exact parseNullValue_rt rest
  | hbool b =>
    intro d rest fuel hg hrest hfuel
    simp only [goodVal, decide_eq_true_eq] at hg
    simp only [fuelV] at hfuel
    obtain ⟨f, rfl⟩ : ∃ f, fuel = f + 1 := ⟨fuel - 1, by omega⟩
    cases b
    · rw [show serializeValue (.bool false) ++ rest =
          'f' :: (['a', 'l', 's', 'e'] ++ rest) by simp [serializeValue, falseBytes]]
      rw [parseStep.eq_def]
      dsimp only
      rw [if_neg (by omega)]
      rw [skipWs_cons 'f' _ (by decide)]
      dsimp only
      rw [if_neg (by decide), if_neg (by decide), if_neg (by decide),
        if_pos (Or.inr rfl)]
      exact parseBooleanValue_false rest
    · rw [show serializeValue (.bool true) ++ rest =
          't' :: (['r', 'u', 'e'] ++ rest) by simp [serializeValue, trueBytes]]
      rw [parseStep.eq_def]
      dsimp only
      rw [if_neg (by omega)]
      rw [skipWs_cons 't' _ (by decide)]
      dsimp only
      rw [if_neg (by decide), if_neg (by decide), if_neg (by decide),
        if_pos (Or.inl rfl)]
      exact parseBooleanValue_true rest
  | hnum fv =>
    intro d rest fuel hg hrest hfuel
    simp only [goodVal, Bool.and_eq_true, decide_eq_true_eq] at hg
    simp only [fuelV] at hfuel
    obtain ⟨f, rfl⟩ : ∃ f, fuel = f + 1 := ⟨fuel - 1, by omega⟩
    have hrest2 : stopRest rest := by
      rcases hrest with ⟨c, r, rfl, hc⟩ | ⟨rfl, hcont⟩
      · exact Or.inr ⟨c, r, rfl, hc⟩
      · exact Or.inl rfl
    cases fv with
    | nan => simp [goodNum] at hg
    | inf b => simp [goodNum] at hg
    | fin q =>
      have hlcub : lcub.toNat = 123 := by rw [lcub, toNat_ofNat_lt 123 (by norm_num)]
      obtain ⟨c, t, hct, hcls⟩ := numToChars_shape_fin q
      rw [show serializeValue (.num (.fin q)) ++ rest = c :: (t ++ rest) by
        simp [serializeValue, hct]]
      rw [parseStep.eq_def]
      dsimp only
      rw [if_neg (by omega)]
      rw [skipWs_cons c _ (by simp only [isspaceC, decide_eq_false_iff_not]; omega)]
      dsimp only
      rw [if_neg (char_ne_of_toNat (by omega)),
        if_neg (char_ne_of_toNat (by rw [show ('[' : Char).toNat = 91 from rfl]; omega)),
        if_neg (char_ne_of_toNat (by rw [show ('"' : Char).toNat = 34 from rfl]; omega))]
      rw [if_neg ?hbf]
      case hbf =>
        rintro (rfl | rfl)
        · rw [show ('t' : Char).toNat = 116 from rfl] at hcls
          omega
        · rw [show ('f' : Char).toNat = 102 from rfl] at hcls
          omega
      rw [if_pos ?hnumc]
      case hnumc =>
        rcases hcls with h | h
        · exact Or.inl (char_toNat_inj h)
        · exact Or.inr (by simp only [isdigitC, decide_eq_true_eq]; omega)
      rw [← List.cons_append, ← hct]
      exact parseNumberValue_rt (.fin q) hg.2 rest hrest2
  | hstr s =>
    intro d rest fuel hg hrest hfuel
    simp only [goodVal, Bool.and_eq_true, decide_eq_true_eq] at hg
    simp only [fuelV] at hfuel
    obtain ⟨f, rfl⟩ : ∃ f, fuel = f + 1 := ⟨fuel - 1, by omega⟩
    obtain ⟨c0, r0, rfl, hc0⟩ : ∃ c r, rest = c :: r ∧ stopChar c := by
      rcases hrest with h | ⟨rfl, hcont⟩
      · exact h
      · simp [isCont] at hcont
    rw [show serializeValue (.str s) ++ (c0 :: r0) =
        '"' :: ((escapeList s ++ ['"']) ++ (c0 :: r0)) by
      simp [serializeValue, serializeString]]
    rw [parseStep.eq_def]
    dsimp only
    rw [if_neg (by omega)]
    rw [skipWs_cons '"' _ (by decide)]
    dsimp only
    rw [if_neg (by decide), if_neg (by decide), if_pos rfl]
    exact parseStringValue_rt s hg.2 (c0 :: r0) (by simp)
  | harr items hIH =>
    intro d rest fuel hg hrest hfuel
    simp only [goodVal, Bool.and_eq_true, decide_eq_true_eq, and_assoc] at hg
    obtain ⟨hg1, hg2, hg3⟩ := hg
    simp only [fuelV] at hfuel
    obtain ⟨f, rfl⟩ : ∃ f, fuel = f + 1 := ⟨fuel - 1, by omega⟩
    rw [show serializeValue (.arr items) ++ rest =
        '[' :: (serializeItems items ++ ']' :: rest) by
      simp [serializeValue, List.append_assoc]]
    rw [parseStep.eq_def]
    dsimp only
    rw [if_neg (by omega)]
    rw [skipWs_cons '[' _ (by decide)]
    dsimp only
    rw [if_neg (by decide), if_pos rfl]
    obtain ⟨f2, rfl⟩ : ∃ f2, f = f2 + 1 := ⟨f - 1, by omega⟩
    rw [parseStep.eq_def]
    dsimp only
    cases items with
    | nil =>
      rw [show serializeItems ([] : List JValue) ++ ']' :: rest = ']' :: rest by
        simp [serializeItems]]
      rw [skipWs_cons ']' _ (by decide)]
      dsimp only
      rw [if_pos rfl]
    | cons x t =>
      obtain ⟨c0, X0, hcX, hns, hne1, hne2, hne3⟩ := serializeItems_shape x t
      rw [hcX, List.cons_append, skipWs_cons c0 _ hns]
      dsimp only
      rw [if_neg hne1]
      rw [← List.cons_append, ← hcX]
      have hrec := arrLoop_rt (d + 1) rest (x :: t)
        (fun z hz rest2 fuel2 => hIH z hz (d + 1) rest2 fuel2) [] f2 (by simp)
        (by simpa using hg2) hg3 (by omega)
      rw [hrec]
      simp
  | hobj mems hIH =>
    intro d rest fuel hg hrest hfuel
    simp only [goodVal, Bool.and_eq_true, decide_eq_true_eq, and_assoc] at hg
    obtain ⟨hg1, hg2, hg3, hg4⟩ := hg
    simp only [fuelV] at hfuel
    obtain ⟨f, rfl⟩ : ∃ f, fuel = f + 1 := ⟨fuel - 1, by omega⟩
    rw [show serializeValue (.obj mems) ++ rest =
        lcub :: (serializeMems mems ++ rcub :: rest) by
      simp [serializeValue, List.append_assoc]]
    rw [parseStep.eq_def]
    dsimp only
    rw [if_neg (by omega)]
    rw [skipWs_cons lcub _ (by decide)]
    dsimp only
    rw [if_pos rfl]
    obtain ⟨f2, rfl⟩ : ∃ f2, f = f2 + 1 := ⟨f - 1, by omega⟩
    rw [parseStep.eq_def]
    dsimp only
    cases mems with
    | nil =>
      rw [show serializeMems ([] : List (List Char × JValue)) ++ rcub :: rest =
          rcub :: rest by simp [serializeMems]]
      rw [skipWs_cons rcub _ (by decide)]
      dsimp only
      rw [if_pos rfl]
    | cons p t =>
      obtain ⟨X0, hcX⟩ := serializeMems_head p.1 p.2 t
      rw [show (p.1, p.2) = p from rfl] at hcX
      rw [hcX, List.cons_append, skipWs_cons '"' _ (by decide)]
      dsimp only
      rw [if_neg (by decide)]
      rw [← List.cons_append, ← hcX]
      have hrec := objLoop_rt (d + 1) rest (p :: t)
        (fun z hz rest2 fuel2 => hIH z hz (d + 1) rest2 fuel2) [] f2 (by simp)
        (by simpa using hg2) hg4 (by simpa using hg3) (by omega)
      rw [hrec]
      simp

/-- The claim C1 counterexample: a Null-rooted tree serializes to `null`,
which json_parse_string rejects outright (the first non-whitespace byte
must open an object or array), so the round trip fails for scalar roots,
contradicting "this holds for trees of every root variant". -/
theorem claim_C1_counterexample :
    jsonParseString (jsonSerializeToString JValue.null) = none := by
  have h : jsonSerializeToString JValue.null = ['n', 'u', 'l', 'l'] := by
    simp [jsonSerializeToString, serializeValue, nullBytes]
  rw [h]
  rfl

/-- The claim C1 amended: parse-after-serialize reproduces the tree
exactly for every tree whose root is an Object or Array and which is
within the parser's reach: every node within the nesting cap, every
Number finite with at most six decimal places, every string byte
escape-cycle-safe, member names pairwise distinct, and container counts
within the capacity caps. -/
theorem claim_C1_roundtrip (v : JValue) (hroot : isCont v = true)
    (hg : goodVal 0 v = true) :
    jsonParseString (jsonSerializeToString v) = some v := by
  obtain ⟨c, t, hct, hns, -, -, -⟩ := serializeValue_shape v
  have hcont : c = lcub ∨ c = '[' := by
    cases v with
    | arr items =>
      right
      have hsv : serializeValue (.arr items) = '[' :: (serializeItems items ++ [']']) := by
        simp [serializeValue]
      rw [hsv] at hct
      injection hct with hh ht
      exact hh.symm
    | obj mems =>
      left
      have hsv : serializeValue (.obj mems) = lcub :: (serializeMems mems ++ [rcub]) := by
        simp [serializeValue]
      rw [hsv] at hct
      injection hct with hh ht
      exact hh.symm
    | null => simp [isCont] at hroot
    | bool b => simp [isCont] at hroot
    | num f => simp [isCont] at hroot
    | str s => simp [isCont] at hroot
  have hmain := parseStep_serialize v 0 [] (3 * (serializeValue v).length + 3) hg
    (Or.inr ⟨rfl, hroot⟩) (le_trans (fuelV_le v) (by omega))
  rw [List.append_nil] at hmain
  rw [jsonSerializeToString, jsonParseString, hct, skipWs_cons c t hns]
  dsimp only
  rw [if_pos hcont, parseValue, ← hct, hmain]
  rfl

/-- Witness for the amended C1 at a concrete object-rooted tree holding
every scalar variant, a nested array and a nested object. -/
theorem claim_C1_witness :
    isCont (JValue.arr [JValue.null, JValue.bool true, JValue.str ['h', 'i'],
      JValue.num (FV.fin 3), JValue.obj [(['a'], JValue.arr [])]]) = true ∧
    goodVal 0 (JValue.arr [JValue.null, JValue.bool true, JValue.str ['h', 'i'],
      JValue.num (FV.fin 3), JValue.obj [(['a'], JValue.arr [])]]) = true ∧
    jsonParseString (jsonSerializeToString (JValue.arr [JValue.null, JValue.bool true,
      JValue.str ['h', 'i'], JValue.num (FV.fin 3),
      JValue.obj [(['a'], JValue.arr [])]])) =
      some (JValue.arr [JValue.null, JValue.bool true, JValue.str ['h', 'i'],
        JValue.num (FV.fin 3), JValue.obj [(['a'], JValue.arr [])]]) := by
  have hden : ((3 : ℚ) * 1000000).den = 1 := by with_unfolding_all rfl
  have hroot : isCont (JValue.arr [JValue.null, JValue.bool true, JValue.str ['h', 'i'],
      JValue.num (FV.fin 3), JValue.obj [(['a'], JValue.arr [])]]) = true := rfl
  have hg : goodVal 0 (JValue.arr [JValue.null, JValue.bool true, JValue.str ['h', 'i'],
      JValue.num (FV.fin 3), JValue.obj [(['a'], JValue.arr [])]]) = true := by
    simp [goodVal, goodItems, goodMems, goodNum, goodStr, goodChar, namesDistinct, hden]
  exact ⟨hroot, hg, claim_C1_roundtrip _ hroot hg⟩

end Parson
